import Mathlib

/-!
Verification of the binary (de)serialization subsystem of a blockchain
client SDK written in TypeScript.

The development shallowly embeds the codec layer of the SDK:

* byte buffers are `List Nat` (each entry a byte value `< 256` where it
  matters);
* the sequential cursor of `deserializationHelpers` becomes the state-passing
  decoder type `Dec`;
* hex-encoded strings (public keys, signatures, auxiliary data) are modelled
  by the byte sequences they denote, since hex encoding is a bijection
  between byte buffers and canonical hex strings;
* JavaScript `Date` values are modelled by their `getTime()` millisecond
  value (an integer);
* fallible TypeScript code (functions that `throw`) returns `Except`.
-/

/-- Every entry of the buffer is an actual byte value. -/
def wfBytes (bs : List Nat) : Bool := bs.all (· < 256)

/-- Little-endian encoding of a natural into exactly `w` bytes, as produced
by the SDK's `encodeWordN(value, useLittleEndian = true)` helpers.  The
value is reduced modulo `2^(8*w)`; the TypeScript helpers instead throw on
out-of-range input, so the well-formedness hypotheses of the theorems below
keep values in range. -/
def encodeLE : Nat → Nat → List Nat
  | 0, _ => []
  | w + 1, v => v % 256 :: encodeLE w (v / 256)

/-- Big-endian encoding into exactly `w` bytes, as produced by the SDK's
`encodeWordN(value)` helpers with their default big-endian byte order. -/
def encodeBE (w v : Nat) : List Nat := (encodeLE w v).reverse

/-- Little-endian value of a byte buffer (`readUIntNLE`). -/
def decodeLE (bs : List Nat) : Nat := bs.foldr (fun b acc => b + 256 * acc) 0

/-- Big-endian value of a byte buffer (`readUIntNBE`). -/
def decodeBE (bs : List Nat) : Nat := decodeLE bs.reverse

/-- Error taxonomy of the codec layer (section 7 of the design): every
`throw` site of the embedded functions is mapped to one constructor. -/
inductive DErr where
  /-- `UnderflowError`: the cursor's `read(n)` had fewer than `n` bytes. -/
  | underflow
  /-- `Deserialization failed: invalid checksum byte` in the metadata-url
  decoder (presence flag of the optional hash not 0/1). -/
  | invalidChecksumByte
  /-- `Unsupported support result type` (CIS-0 tag byte above 2), and other
  discriminants outside their declared range. -/
  | invalidTag
  /-- `InvalidBooleanError`: boolean byte not 0/1. -/
  | invalidBoolean
  /-- Optional presence flag byte not 0/1 in the schema codec. -/
  | invalidFlag
  /-- `UnknownVariantError`: enum discriminant at least the variant count. -/
  | unknownVariant
  /-- `UnsupportedTransactionKindError`: account-transaction kind tag outside
  the deserialization allow-list. -/
  | unsupportedTransactionKind
  /-- The exhaustion-based list loop made no progress (the TypeScript loop
  would not terminate; unreachable for the item decoders actually used). -/
  | noProgress
  /-- Bytes left over after a full-submission decode. -/
  | trailingBytes
  /-- `Mismatch between length of queries in request and values in
  response.` in `cis0Supports`. -/
  | lengthMismatch
  /-- The query layer failed (no instance info, failed invocation, or a
  missing return value) in `cis0Supports`. -/
  | queryFailure
  deriving DecidableEq, Repr

/-- A sequential decoder over the cursor: consumes a prefix of the buffer
and returns the decoded value with the remaining bytes, or throws. -/
abbrev Dec (α : Type) := List Nat → Except DErr (α × List Nat)

/-- Decoder returning a constant without consuming input. -/
def decPure {α : Type} (a : α) : Dec α := fun b => .ok (a, b)

/-- Sequential composition of decoders (the cursor advances). -/
def decBind {α β : Type} (p : Dec α) (f : α → Dec β) : Dec β := fun b =>
  match p b with
  | .error e => .error e
  | .ok (a, r) => f a r

instance : Monad Dec where
  pure := decPure
  bind := decBind

/-- The cursor's `read(n)`: take `n` bytes or fail with `UnderflowError`. -/
def readBytes (n : Nat) : Dec (List Nat) := fun b =>
  if n ≤ b.length then .ok (b.take n, b.drop n) else .error .underflow

/-- Read an unsigned `w`-byte little-endian word (`read(w).readUIntLE`). -/
def readLE (w : Nat) : Dec Nat := do
  let bs ← readBytes w
  pure (decodeLE bs)

/-- Read a signed 64-bit little-endian word (`read(8).readBigInt64LE`),
interpreting the top bit as a two's-complement sign. -/
def readI64LE : Dec Int := do
  let u ← readLE 8
  pure (if u < 2 ^ 63 then (u : Int) else (u : Int) - 2 ^ 64)

/-- Decoder that always throws. -/
def decFail {α : Type} (e : DErr) : Dec α := fun _ => .error e

/-! ## Serialization helpers

`serializationHelpers.ts` is not part of the extract; the helpers below are
modelled from the spec (section 4.1): fixed-width little-endian words,
1-byte presence flag (0/1) for optionals, and length prefixes of a
per-call-site width. -/
/-- Modelled from the spec: `encodeBool` — one byte, 1 for true, 0 for
false. -/
def encodeBool (b : Bool) : List Nat := [if b then 1 else 0]

/-- Modelled from the spec: `makeSerializeOptional` — a 1-byte presence
flag (0 absent / 1 present) followed by the encoded payload when
present. -/
def makeSerializeOptional {α : Type} (ser : α → List Nat) :
    Option α → List Nat
  | none => [0]
  | some a => 1 :: ser a

/-- Modelled from the spec: `packBufferWithWord16Length(buf, true)` — a
2-byte little-endian byte-length prefix followed by the buffer. -/
def packBufferWithWord16Length (bs : List Nat) : List Nat :=
  encodeLE 2 bs.length ++ bs

/-- Modelled from the spec: `packBufferWithWord8Length(buf)` — a 1-byte
byte-length prefix followed by the buffer. -/
def packBufferWithWord8Length (bs : List Nat) : List Nat :=
  encodeLE 1 bs.length ++ bs

/-! ## CIS-2 / CIS-4 data model (cis4/util.ts) -/
/-- `CIS2.MetadataUrl`: a url (modelled by its UTF-8 bytes) and an optional
32-byte checksum. -/
structure MetadataUrl where
  url : List Nat
  hash : Option (List Nat)
  deriving DecidableEq, Repr

/-- `CIS4.CredentialInfo` from cis4/util.ts.  Hex-encoded fields are
modelled by the bytes they denote; `Date`s by their millisecond value. -/
structure CredentialInfo where
  holderPubKey : List Nat
  holderRevocable : Bool
  validFrom : Int
  validUntil : Option Int
  metadataUrl : MetadataUrl
  deriving DecidableEq, Repr

/-- `CIS4.CredentialEntry` from cis4/util.ts. -/
structure CredentialEntry where
  credentialInfo : CredentialInfo
  schemaRef : MetadataUrl
  revocationNonce : Int
  deriving DecidableEq, Repr

/-- `CIS4.RevocationKeyWithNonce` from cis4/util.ts. -/
structure RevocationKeyWithNonce where
  key : List Nat
  nonce : Int
  deriving DecidableEq, Repr

/-- A millisecond timestamp a JavaScript `Date` can carry (the JS `Date`
range is +-8.64e15 ms, within 2^53, so `Number(bigint)` conversion in the
decoder is exact); serialization requires it nonnegative. -/
def wfDate (t : Int) : Bool := decide (0 ≤ t) && decide (t < 2 ^ 53)

/-- Well-formedness of a metadata url record: the length fits its 2-byte
prefix, the checksum (when present) is a 32-byte buffer. -/
def MetadataUrl.wf (m : MetadataUrl) : Bool :=
  decide (m.url.length < 2 ^ 16) && wfBytes m.url &&
    (match m.hash with
     | none => true
     | some h => decide (h.length = 32) && wfBytes h)

/-- Well-formedness of a credential-info record: 32-byte holder key, dates
in the JS `Date` range. -/
def CredentialInfo.wf (c : CredentialInfo) : Bool :=
  decide (c.holderPubKey.length = 32) && wfBytes c.holderPubKey &&
    wfDate c.validFrom &&
    (match c.validUntil with
     | none => true
     | some t => wfDate t) &&
    c.metadataUrl.wf

/-! ## CIS-4 codecs (cis4/util.ts) -/
/-- `serializeDate` from cis4/util.ts: `encodeWord64(BigInt(date.getTime()),
true)` — the millisecond value as an unsigned 64-bit little-endian word
(the word encoder throws on negative input, covered by `wfDate`). -/
def serializeDate (t : Int) : List Nat := encodeLE 8 t.toNat

/-- `deserializeDate` from cis4/util.ts: `cursor.read(8).readBigInt64LE(0)`
then `new Date(Number(value))`. -/
def deserializeDate : Dec Int := readI64LE

/-- `deserializeEd25519PublicKey` from cis4/util.ts:
`cursor.read(32).toString('hex')`, modelled as the 32 bytes themselves. -/
def deserializeEd25519PublicKey : Dec (List Nat) := readBytes 32

/-- Modelled from the spec: `serializeCIS2MetadataUrl` (cis2/util.ts is not
part of the extract) — a 2-byte length-prefixed url followed by the
presence-flagged optional 32-byte checksum (section 4.4). -/
def serializeCIS2MetadataUrl (m : MetadataUrl) : List Nat :=
  packBufferWithWord16Length m.url ++ makeSerializeOptional id m.hash

/-- Modelled from the spec: `deserializeCIS2MetadataUrl` (cis2/util.ts is
not part of the extract) — reads the 2-byte length, the url bytes and the
checksum presence flag, which must be 0 or 1 (the spec: decode must reject
any other flag byte). -/
def deserializeCIS2MetadataUrl : Dec MetadataUrl := do
  let n ← readLE 2
  let url ← readBytes n
  let flag ← readLE 1
  if flag == 1 then do
    let h ← readBytes 32
    pure { url := url, hash := some h }
  else if flag == 0 then
    pure { url := url, hash := none }
  else
    decFail .invalidChecksumByte

/-- `deserializeOptional` from cis4/util.ts: reads the 1-byte presence
flag; `0` yields `undefined`, and ANY nonzero byte (`if (!hasValue)`) is
treated as present, followed by the payload. -/
def deserializeOptional {α : Type} (fn : Dec α) : Dec (Option α) := do
  let hasValue ← readLE 1
  if hasValue == 0 then
    pure none
  else do
    let a ← fn
    pure (some a)

/-- `serializeCIS4CredentialInfo` from cis4/util.ts. -/
def serializeCIS4CredentialInfo (c : CredentialInfo) : List Nat :=
  c.holderPubKey ++ encodeBool c.holderRevocable ++ serializeDate c.validFrom
    ++ makeSerializeOptional serializeDate c.validUntil
    ++ serializeCIS2MetadataUrl c.metadataUrl

/-- `deserializeCIS4CredentialInfo` from cis4/util.ts. -/
def deserializeCIS4CredentialInfo : Dec CredentialInfo := do
  let holderPubKey ← deserializeEd25519PublicKey
  let rb ← readLE 1
  let validFrom ← deserializeDate
  let validUntil ← deserializeOptional deserializeDate
  let metadataUrl ← deserializeCIS2MetadataUrl
  pure { holderPubKey := holderPubKey, holderRevocable := rb == 1,
         validFrom := validFrom, validUntil := validUntil,
         metadataUrl := metadataUrl }

/-- The field sequence of `deserializeCIS4CredentialEntry`: credential
info, schema reference, 8-byte revocation nonce. -/
def credentialEntryDec : Dec CredentialEntry := do
  let credentialInfo ← deserializeCIS4CredentialInfo
  let schemaRef ← deserializeCIS2MetadataUrl
  let revocationNonce ← readI64LE
  pure (CredentialEntry.mk credentialInfo schemaRef revocationNonce)

/-- `deserializeCIS4CredentialEntry` from cis4/util.ts: credential info,
schema reference and an 8-byte revocation nonce, decoded from the start of
the buffer (the hex input is modelled by its bytes). -/
def deserializeCIS4CredentialEntry (b : List Nat) :
    Except DErr CredentialEntry :=
  match credentialEntryDec b with
  | .error e => .error e
  | .ok (v, _) => .ok v

/-- `deserializeCIS4RevocationKey` from cis4/util.ts: a 32-byte key and an
8-byte nonce. -/
def deserializeCIS4RevocationKey : Dec RevocationKeyWithNonce := do
  let key ← deserializeEd25519PublicKey
  let nonce ← readI64LE
  pure { key := key, nonce := nonce }

/-- Modelled from the spec: `makeDeserializeListResponse` of
`deserializationHelpers.ts` (not part of the extract) — repeatedly runs the
item decoder on the cursor until the buffer is exhausted, with no count
prefix (section 4.4).  The TypeScript loop would not terminate on an item
consuming no bytes; the model reports that as `noProgress` (unreachable for
the items actually used). -/
def makeDeserializeListResponse {α : Type} (item : Dec α)
    (b : List Nat) : Except DErr (List α) :=
  if b.isEmpty then .ok []
  else
    match item b with
    | .error e => .error e
    | .ok (v, rest) =>
      if h : rest.length < b.length then
        (makeDeserializeListResponse item rest).map (v :: ·)
      else .error .noProgress
termination_by b.length
decreasing_by exact h

/-- `deserializeCIS4RevocationKeys` from cis4/util.ts. -/
def deserializeCIS4RevocationKeys : List Nat →
    Except DErr (List RevocationKeyWithNonce) :=
  makeDeserializeListResponse deserializeCIS4RevocationKey

/-! ## Round-trip machinery

`DecodesTo p enc v` states that the decoder `p`, run on `enc` followed by
any continuation, consumes exactly `enc` and produces `v` — the shape of
every round-trip fact below. -/
def DecodesTo {α : Type} (p : Dec α) (enc : List Nat) (v : α) : Prop :=
  ∀ r, p (enc ++ r) = .ok (v, r)

/-! ## CIS-0 (cis0.ts) -/
/-- Equality is decidable on decode results (used by concrete witnesses). -/
instance {ε α : Type} [DecidableEq ε] [DecidableEq α] :
    DecidableEq (Except ε α) := fun a b =>
  match a, b with
  | .error e, .error f =>
    if h : e = f then .isTrue (by rw [h]) else .isFalse (by simp [h])
  | .error _, .ok _ => .isFalse (by simp)
  | .ok _, .error _ => .isFalse (by simp)
  | .ok x, .ok y =>
    if h : x = y then .isTrue (by rw [h]) else .isFalse (by simp [h])

/-- `ContractAddress` — 64-bit unsigned index and subindex. -/
structure ContractAddress where
  index : Nat
  subindex : Nat
  deriving DecidableEq, Repr

/-- `CIS0.SupportResult` from cis0.ts. -/
inductive SupportResult where
  | noSupport
  | support
  | supportBy (addresses : List ContractAddress)
  deriving DecidableEq, Repr

instance : Inhabited SupportResult := ⟨.noSupport⟩

/-- `buffer.readUInt8(offset)`: one byte at an absolute offset; reading past
the end throws (modelled as the read failure). -/
def readUInt8At (b : List Nat) (i : Nat) : Except DErr Nat :=
  if h : i < b.length then .ok b[i] else .error .underflow

/-- `buffer.readBigUInt64LE(offset)`: unsigned 64-bit little-endian word at
an absolute offset. -/
def readBigUInt64LEAt (b : List Nat) (i : Nat) : Except DErr Nat :=
  if i + 8 ≤ b.length then .ok (decodeLE ((b.drop i).take 8))
  else .error .underflow

/-- The address loop of `deserializeSupportResult` in cis0.ts: reads `n`
contract addresses (8-byte LE index, then 8-byte LE subindex) starting at
`base`. -/
def readAddresses (buffer : List Nat) (base : Nat) :
    Nat → Except DErr (List ContractAddress)
  | 0 => .ok []
  | n + 1 => do
    let index ← readBigUInt64LEAt buffer base
    let subindex ← readBigUInt64LEAt buffer (base + 8)
    let rest ← readAddresses buffer (base + 16) n
    .ok (ContractAddress.mk index subindex :: rest)

/-- The item decoder of `deserializeSupportResult` in cis0.ts: a 1-byte
tag (0 `NoSupport`, 1 `Support`, 2 `SupportBy` with a 1-byte address count
followed by the addresses); a tag above 2 throws.  Returns the decoded
value and the bytes read. -/
def supportResultItem (buffer : List Nat) :
    Except DErr (SupportResult × Nat) := do
  let rawType ← readUInt8At buffer 0
  if rawType > 2 then .error .invalidTag
  else if rawType ≠ 2 then
    .ok (if rawType = 0 then .noSupport else .support, 1)
  else do
    let numAddresses ← readUInt8At buffer 1
    let addresses ← readAddresses buffer 2 numAddresses
    .ok (.supportBy addresses, 2 + 16 * numAddresses)

/-- Modelled from the spec: the `serializationHelpers.ts` variant of
`makeDeserializeListResponse` used by cis0.ts (not part of the extract) —
repeatedly runs the item on the remaining buffer, advancing by the reported
`bytesRead`, until the buffer is exhausted; no count prefix.  As in the
cursor variant, an item reporting no progress is modelled as an error. -/
def makeDeserializeListResponseBuf {α : Type}
    (item : List Nat → Except DErr (α × Nat)) (b : List Nat) :
    Except DErr (List α) :=
  if hemp : b.isEmpty then .ok []
  else
    match item b with
    | .error e => .error e
    | .ok (v, k) =>
      if h : 0 < k then
        (makeDeserializeListResponseBuf item (b.drop k)).map (v :: ·)
      else .error .noProgress
termination_by b.length
decreasing_by
  have hne : b ≠ [] := by simpa [List.isEmpty_iff] using hemp
  have hpos : 0 < b.length := List.length_pos.mpr hne
  simp only [List.length_drop]
  omega

/-- `deserializeSupportResult` from cis0.ts. -/
def deserializeSupportResult : List Nat → Except DErr (List SupportResult) :=
  makeDeserializeListResponseBuf supportResultItem

/-- `serializeSupportIdentifier` from cis0.ts: a 1-byte length-prefixed
ascii identifier (identifiers modelled by their ascii bytes). -/
def serializeSupportIdentifier (id : List Nat) : List Nat :=
  packBufferWithWord8Length id

/-- `serializeSupportIdentifiers` from cis0.ts: 2-byte little-endian count
followed by the serialized identifiers. -/
def serializeSupportIdentifiers (ids : List (List Nat)) : List Nat :=
  encodeLE 2 ids.length ++ (ids.map serializeSupportIdentifier).flatten

/-- The contract instance information consumed by `cis0Supports`: the
instance name and its method list (the shape of the collaborator
contract). -/
structure InstanceInfo where
  name : String
  methods : List String
  deriving DecidableEq, Repr

/-- Modelled from the spec: `getContractName` of contractHelpers.ts (not
part of the extract) — instance names carry an `init_` prefix which is
stripped. -/
def getContractName (info : InstanceInfo) : String := info.name.drop 5

/-- Outcome tag of a contract invocation. -/
inductive InvokeTag where
  | success
  | failure
  deriving DecidableEq, Repr

/-- The invocation result shape consumed by `cis0Supports`. -/
structure InvokeResult where
  tag : InvokeTag
  returnValue : Option (List Nat)
  deriving DecidableEq, Repr

/-- `makeDynamicFunction` applied to the identifiers: a single identifier
is wrapped in a singleton list before serialization. -/
def idsListOf : List Nat ⊕ List (List Nat) → List (List Nat)
  | .inl x => [x]
  | .inr xs => xs

/-- The number of results a query must produce: one for a single
identifier, one per identifier for a list (`expectedValuesLength`). -/
def expectedOf : List Nat ⊕ List (List Nat) → Nat
  | .inl _ => 1
  | .inr xs => xs.length

/-- `cis0Supports` from cis0.ts.  The two asynchronous collaborators are
passed as functions: `instanceInfo` is what `getInstanceInfo` resolves to,
`invoke` maps the serialized parameter to what `invokeContract` resolves
to.  The first component records whether `invokeContract` was called; the
second is the call's outcome (`.ok none` models returning `undefined`). -/
def cis0Supports (instanceInfo : Option InstanceInfo)
    (invoke : List Nat → Option InvokeResult)
    (standardIds : List Nat ⊕ List (List Nat)) :
    Bool × Except DErr (Option (SupportResult ⊕ List SupportResult)) :=
  match instanceInfo with
  | none => (false, .error .queryFailure)
  | some info =>
    if info.methods.contains (getContractName info ++ ".supports") then
      match invoke (serializeSupportIdentifiers (idsListOf standardIds)) with
      | none => (true, .error .queryFailure)
      | some response =>
        match response.tag, response.returnValue with
        | .failure, _ => (true, .error .queryFailure)
        | .success, none => (true, .error .queryFailure)
        | .success, some rv =>
          match deserializeSupportResult rv with
          | .error e => (true, .error e)
          | .ok results =>
            if results.length ≠ expectedOf standardIds then
              (true, .error .lengthMismatch)
            else
              match standardIds with
              | .inl _ => (true, .ok (some (.inl results.headI)))
              | .inr _ => (true, .ok (some (.inr results)))
    else (false, .ok none)

/-! ## Transaction payload codec

`serialization.ts` / `deserialization.ts` are not part of the extract; the
envelope below is modelled from the spec (section 4.3): a block-item kind
discriminant, the signature map (credential count, then per credential
index + key count, then per key index + signature bytes, the signature
bytes length-prefixed), the header (32-byte sender, 8-byte nonce, 8-byte
energy limit, 8-byte expiry), and the payload (1-byte kind tag followed by
the kind's fixed field layout).  Multi-byte envelope words use the word
encoders' default big-endian order. -/
/-- `AccountTransactionType.Transfer`. -/
def transferTag : Nat := 3

/-- `AccountTransactionType.RegisterData`. -/
def registerDataTag : Nat := 21

/-- `AccountTransactionType.TransferWithMemo`. -/
def transferWithMemoTag : Nat := 22

/-- The deserialization allow-list: only these account-transaction kinds
round-trip (part_000: `Transfer`, `TransferWithMemo` and `RegisterData`). -/
def supportedTransactionKinds : List Nat :=
  [transferTag, registerDataTag, transferWithMemoTag]

/-- The account-transaction header (sender address modelled by its 32
bytes). -/
structure AccountTransactionHeader where
  sender : List Nat
  nonce : Nat
  energyAmount : Nat
  expiry : Nat
  deriving DecidableEq, Repr

/-- The supported account-transaction payloads: simple transfer, transfer
with memo, register data (amounts in microCCD, memo/data as raw bytes). -/
inductive AccountTransactionPayload where
  | transfer (toAddress : List Nat) (amount : Nat)
  | transferWithMemo (toAddress : List Nat) (memo : List Nat) (amount : Nat)
  | registerData (data : List Nat)
  deriving DecidableEq, Repr

/-- The 1-byte kind tag of a payload. -/
def payloadTag : AccountTransactionPayload → Nat
  | .transfer _ _ => transferTag
  | .transferWithMemo _ _ _ => transferWithMemoTag
  | .registerData _ => registerDataTag

/-- An account transaction: header plus payload (the type tag is the
payload's kind, keeping the tag/payload invariant by construction). -/
structure AccountTransaction where
  header : AccountTransactionHeader
  payload : AccountTransactionPayload
  deriving DecidableEq, Repr

/-- `AccountTransactionSignature`: credential-index to key-index to
signature bytes.  The mapping is modelled canonically as an association
list strictly ascending in its keys (insertion order is irrelevant in the
source's object map; indices are the addressing scheme). -/
abbrev CredentialSignature := List (Nat × List Nat)

/-- The two-level signature mapping. -/
abbrev AccountTransactionSignature := List (Nat × CredentialSignature)

/-- Keys strictly ascend (each key is below every later one): the canonical
order of a JavaScript object with numeric keys. -/
def strictAsc : List Nat → Bool
  | [] => true
  | a :: rest => rest.all (fun b => decide (a < b)) && strictAsc rest

/-- Insertion into the canonical ascending association list, overwriting an
existing key: the JavaScript `map[k] = v` of the deserializer. -/
def mapInsert {α : Type} (k : Nat) (v : α) :
    List (Nat × α) → List (Nat × α)
  | [] => [(k, v)]
  | (k2, v2) :: rest =>
    if k < k2 then (k, v) :: (k2, v2) :: rest
    else if k = k2 then (k, v) :: rest
    else (k2, v2) :: mapInsert k v rest

/-- Serialize one key-index/signature pair: 1-byte key index, 2-byte
signature length, signature bytes. -/
def serializeKeySig (kv : Nat × List Nat) : List Nat :=
  encodeLE 1 kv.1 ++ encodeBE 2 kv.2.length ++ kv.2

/-- Serialize one credential's block: 1-byte credential index, 1-byte key
count, then the key/signature pairs. -/
def serializeCredSignatures (c : Nat × CredentialSignature) : List Nat :=
  encodeLE 1 c.1 ++ encodeLE 1 c.2.length ++
    (c.2.map serializeKeySig).flatten

/-- Serialize the signature map: 1-byte credential count then the
credential blocks. -/
def serializeAccountTransactionSignature
    (sigs : AccountTransactionSignature) : List Nat :=
  encodeLE 1 sigs.length ++ (sigs.map serializeCredSignatures).flatten

/-- Serialize the header: sender, nonce, energy limit, expiry. -/
def serializeTransactionHeader (h : AccountTransactionHeader) : List Nat :=
  h.sender ++ encodeBE 8 h.nonce ++ encodeBE 8 h.energyAmount ++
    encodeBE 8 h.expiry

/-- Serialize a payload: the 1-byte kind tag followed by the kind's fields
(simple transfer: 32-byte recipient + 8-byte amount; memo and register
data use 2-byte length prefixes). -/
def serializeAccountTransactionPayload :
    AccountTransactionPayload → List Nat
  | .transfer toAddress amount =>
    transferTag :: (toAddress ++ encodeBE 8 amount)
  | .transferWithMemo toAddress memo amount =>
    transferWithMemoTag :: (toAddress ++ (encodeBE 2 memo.length ++ memo)
      ++ encodeBE 8 amount)
  | .registerData data =>
    registerDataTag :: (encodeBE 2 data.length ++ data)

/-- `serializeAccountTransactionForSubmission`: block-item kind 0 (account
transaction), signatures, header, payload. -/
def serializeAccountTransactionForSubmission (t : AccountTransaction)
    (sigs : AccountTransactionSignature) : List Nat :=
  0 :: (serializeAccountTransactionSignature sigs ++
    (serializeTransactionHeader t.header ++
      serializeAccountTransactionPayload t.payload))

/-- Read a big-endian unsigned word of `w` bytes. -/
def readBE (w : Nat) : Dec Nat := do
  let bs ← readBytes w
  pure (decodeBE bs)

/-- Run a decoder exactly `n` times, collecting the results in order. -/
def readN {α : Type} (p : Dec α) : Nat → Dec (List α)
  | 0 => decPure []
  | n + 1 => do
    let a ← p
    let rest ← readN p n
    decPure (a :: rest)

/-- Read one key-index/signature pair. -/
def deserializeKeySig : Dec (Nat × List Nat) := do
  let idx ← readLE 1
  let slen ← readBE 2
  let sig ← readBytes slen
  decPure (idx, sig)

/-- Read one credential block, rebuilding the key map with object-insert
semantics. -/
def deserializeCredSignatures : Dec (Nat × CredentialSignature) := do
  let idx ← readLE 1
  let cnt ← readLE 1
  let entries ← readN deserializeKeySig cnt
  decPure (idx, entries.foldl (fun m kv => mapInsert kv.1 kv.2 m) [])

/-- Read the signature map, rebuilding it with object-insert semantics. -/
def deserializeAccountTransactionSignature :
    Dec AccountTransactionSignature := do
  let cnt ← readLE 1
  let creds ← readN deserializeCredSignatures cnt
  decPure (creds.foldl (fun m kv => mapInsert kv.1 kv.2 m) [])

/-- Read the header. -/
def deserializeTransactionHeader : Dec AccountTransactionHeader := do
  let sender ← readBytes 32
  let nonce ← readBE 8
  let energyAmount ← readBE 8
  let expiry ← readBE 8
  decPure (AccountTransactionHeader.mk sender nonce energyAmount expiry)

/-- Decode a payload from its kind tag: only the allow-list kinds are
handled; every other tag throws `UnsupportedTransactionKindError`. -/
def deserializeAccountTransactionPayload (tag : Nat) :
    Dec AccountTransactionPayload :=
  if tag = transferTag then do
    let toAddress ← readBytes 32
    let amount ← readBE 8
    decPure (.transfer toAddress amount)
  else if tag = transferWithMemoTag then do
    let toAddress ← readBytes 32
    let mlen ← readBE 2
    let memo ← readBytes mlen
    let amount ← readBE 8
    decPure (.transferWithMemo toAddress memo amount)
  else if tag = registerDataTag then do
    let dlen ← readBE 2
    let data ← readBytes dlen
    decPure (.registerData data)
  else decFail .unsupportedTransactionKind

/-- `deserializeTransaction` (part_000): decode a full submission blob into
the structured transaction and signature map.  Only the account-transaction
block-item branch is modelled (the claims do not concern credential
deployments); a successful decode must consume the whole buffer. -/
def transactionDec : Dec (AccountTransaction × AccountTransactionSignature) := do
  let kind ← readLE 1
  if kind == 0 then do
    let sigs ← deserializeAccountTransactionSignature
    let header ← deserializeTransactionHeader
    let tag ← readLE 1
    let payload ← deserializeAccountTransactionPayload tag
    decPure (AccountTransaction.mk header payload, sigs)
  else decFail .invalidTag

/-- The full submission decode: the body above, plus the requirement that
the buffer is fully consumed. -/
def deserializeTransaction (b : List Nat) :
    Except DErr (AccountTransaction × AccountTransactionSignature) :=
  match transactionDec b with
  | .error e => .error e
  | .ok (v, rest) => if rest.isEmpty then .ok v else .error .trailingBytes

/-- Well-formed key entry: byte-sized index, signature length within its
2-byte prefix, actual byte values. -/
def wfKeySig (kv : Nat × List Nat) : Bool :=
  decide (kv.1 < 256) && decide (kv.2.length < 2 ^ 16) && wfBytes kv.2

/-- Well-formed credential block: byte-sized index and count, well-formed
entries, keys strictly ascending (the canonical map order). -/
def wfCredSignatures (c : Nat × CredentialSignature) : Bool :=
  decide (c.1 < 256) && decide (c.2.length < 256) &&
    c.2.all wfKeySig && strictAsc (c.2.map Prod.fst)

/-- Well-formed signature map: byte-sized count, well-formed blocks,
credential indices strictly ascending. -/
def wfSignature (s : AccountTransactionSignature) : Bool :=
  decide (s.length < 256) && s.all wfCredSignatures &&
    strictAsc (s.map Prod.fst)

/-- Well-formed header: 32-byte sender, 64-bit fields. -/
def wfHeader (h : AccountTransactionHeader) : Bool :=
  decide (h.sender.length = 32) && wfBytes h.sender &&
    decide (h.nonce < 2 ^ 64) && decide (h.energyAmount < 2 ^ 64) &&
    decide (h.expiry < 2 ^ 64)

/-- Well-formed payload: 32-byte recipient, 64-bit amount, memo and data
within their 2-byte length prefixes. -/
def wfPayload : AccountTransactionPayload → Bool
  | .transfer toAddress amount =>
    decide (toAddress.length = 32) && wfBytes toAddress &&
      decide (amount < 2 ^ 64)
  | .transferWithMemo toAddress memo amount =>
    decide (toAddress.length = 32) && wfBytes toAddress &&
      decide (memo.length < 2 ^ 16) && wfBytes memo &&
      decide (amount < 2 ^ 64)
  | .registerData data =>
    decide (data.length < 2 ^ 16) && wfBytes data

/-! ## Signing glue (signHelpers.ts, part_000)

`signHelpers.ts` is not part of the extract; `signMessage` and
`verifyMessageSignature` are modelled from the spec (section 4.5 and
part_000): the digest is the hash of the account address bytes, eight zero
bytes, and the message bytes; the hash and the signing capability are
external collaborators, passed as functions. -/
/-- Modelled from the spec: the exact byte sequence hashed when signing a
message — account address, eight zero bytes, message. -/
def messageSigningPreimage (addr msg : List Nat) : List Nat :=
  addr ++ List.replicate 8 0 ++ msg

/-- Modelled from the spec: `signMessage` — sign the hash of the
message-signing preimage with the supplied signer. -/
def signMessage {Sig : Type} (hash : List Nat → List Nat)
    (signer : List Nat → Sig) (addr msg : List Nat) : Sig :=
  signer (hash (messageSigningPreimage addr msg))

/-- Modelled from the spec: the digest `verifyMessageSignature` recomputes
before checking the signature against the account's keys. -/
def verifyMessageSignatureDigest (hash : List Nat → List Nat)
    (addr msg : List Nat) : List Nat :=
  hash (messageSigningPreimage addr msg)

/-- The canonical envelope-minus-signatures bytes whose hash is the
transaction signing digest (section 4.3). -/
def transactionSignPreimage (h : AccountTransactionHeader)
    (p : AccountTransactionPayload) : List Nat :=
  serializeTransactionHeader h ++ serializeAccountTransactionPayload p

/-! ## Duration (the sdk Duration module appended to the test extract) -/
/-- A decimal digit character. -/
def isDigitChar (c : Char) : Bool :=
  decide (48 ≤ c.toNat) && decide (c.toNat ≤ 57)

/-- The character of a decimal digit. -/
def digitChar (d : Nat) : Char := Char.ofNat (48 + d)

/-- Decimal rendering of a natural (the JS template interpolation
`${value}` of a bigint), fuel-based so it reduces structurally. -/
def natReprAux (n : Nat) : Nat → List Char
  | 0 => []
  | fuel + 1 =>
    if n < 10 then [digitChar n]
    else natReprAux (n / 10) fuel ++ [digitChar (n % 10)]

/-- Decimal rendering of a natural. -/
def natRepr (n : Nat) : List Char := natReprAux n (n + 1)

/-- `Duration.toSchemaValue`: the template string `${value} ms` — the
decimal value, a space, then `ms`. -/
def Duration.toSchemaValue (v : Nat) : List Char :=
  natRepr v ++ [' ', 'm', 's']

/-- `durationString.split(' ')`. -/
def splitOnSpace : List Char → List (List Char)
  | [] => [[]]
  | c :: rest =>
    if c = ' ' then [] :: splitOnSpace rest
    else
      match splitOnSpace rest with
      | g :: gs => (c :: g) :: gs
      | [] => [[c]]

/-- Millisecond multiplier of a duration unit (the second regex group
`(ms|s|m|h|d)` and the `switch` of `Duration.fromString`). -/
def unitMillis : List Char → Option Nat
  | ['m', 's'] => some 1
  | ['s'] => some 1000
  | ['m'] => some (1000 * 60)
  | ['h'] => some (1000 * 60 * 60)
  | ['d'] => some (1000 * 60 * 60 * 24)
  | _ => none

/-- `parseInt(valueString, 10)` on a digit string. -/
def digitsToNat (ds : List Char) : Nat :=
  ds.foldl (fun acc c => acc * 10 + (c.toNat - 48)) 0

/-- One measure of `Duration.fromString`: the anchored regex
`(\d+)(ms|s|m|h|d)` — a nonempty digit prefix immediately followed by a
unit (no whitespace allowed between them) — yielding its millisecond
contribution.  Since no unit contains a digit, the regex's digit group is
exactly the maximal digit prefix. -/
def parseMeasure (cs : List Char) : Option Nat :=
  let ds := cs.takeWhile isDigitChar
  let rest := cs.dropWhile isDigitChar
  if ds.isEmpty then none
  else
    match unitMillis rest with
    | none => none
    | some mult => some (digitsToNat ds * mult)

/-- Accumulate the measures of `Duration.fromString`, throwing
`Invalid duration format` on any measure the regex rejects. -/
def sumMeasures : List (List Char) → Except String Nat
  | [] => .ok 0
  | m :: rest =>
    match parseMeasure m with
    | none => .error "Invalid duration format"
    | some v => (sumMeasures rest).map (v + ·)

/-- `Duration.fromString`: split on spaces, parse and sum every measure
(the final `fromMillis` call cannot throw since the sum is
nonnegative). -/
def Duration.fromString (cs : List Char) : Except String Nat :=
  sumMeasures (splitOnSpace cs)

/-- `Duration.fromSchemaValue` simply delegates to `Duration.fromString`. -/
def Duration.fromSchemaValue (cs : List Char) : Except String Nat :=
  Duration.fromString cs

/-- Signed 64-bit little-endian interpretation of an 8-byte buffer. -/
def int64OfBytes (bs : List Nat) : Int :=
  if decodeLE bs < 2 ^ 63 then (decodeLE bs : Int)
  else (decodeLE bs : Int) - 2 ^ 64

/-- Agreement of a buffer-style item with one block: on the block followed
by anything, the item returns the value and reports exactly the block's
length. -/
def DecodesToBuf {α : Type} (item : List Nat → Except DErr (α × Nat))
    (bl : List Nat) (v : α) : Prop :=
  ∀ tail, item (bl ++ tail) = .ok (v, bl.length)

/-! ## CIS-0 support result facts -/
/-- Wire form of one contract address in a `SupportBy` response: 8-byte LE
index then 8-byte LE subindex. -/
def encodeContractAddress (a : ContractAddress) : List Nat :=
  encodeLE 8 a.index ++ encodeLE 8 a.subindex

/-- Wire form of an address list. -/
def encodeContractAddresses (addrs : List ContractAddress) : List Nat :=
  (addrs.map encodeContractAddress).flatten

/-- One complete support-result encoding: tag 0, tag 1, or tag 2 with a
count byte and sixteen bytes per address. -/
def supportBlock : List Nat → Bool
  | [0] => true
  | [1] => true
  | 2 :: n :: rest => decide (rest.length = 16 * n)
  | _ => false

/-- A complete revocation-key encoding is exactly 40 bytes. -/
def revKeyBlock (bl : List Nat) : Bool := decide (bl.length = 40)

/-! ## Minimum-width and error-classification facts -/
/-- `p` consumes at least `k` bytes whenever it succeeds. -/
def Consumes {α : Type} (p : Dec α) (k : Nat) : Prop :=
  ∀ b v r, p b = .ok (v, r) → r.length + k ≤ b.length

/-- Every error `p` can throw satisfies `S`. -/
def ErrsIn {α : Type} (p : Dec α) (S : DErr → Prop) : Prop :=
  ∀ b e, p b = .error e → S e

/-- Underflow or the invalid-checksum flag: the only failures of the
credential-entry pipeline. -/
def UorC (e : DErr) : Prop := e = .underflow ∨ e = .invalidChecksumByte

/-! ## Schema-driven value codec

The schema interpreter itself is not part of the extract; it is modelled
from the spec (sections 3 and 4.2): a tagged-union type grammar with a
recursive little-endian codec.  Schema integers carry their byte width as
a parameter (the spec's instances are 1, 2, 4, 8 and 16 bytes);
enum discriminants are 1 byte for up to 256 variants and 2 bytes beyond;
length prefixes are 1, 2 or 4 bytes as declared per node. -/
/-- Width (in bytes) of a declared length prefix. -/
inductive LengthPrefix where
  | p1
  | p2
  | p4
  deriving DecidableEq, Repr

/-- Byte count of a length prefix. -/
def LengthPrefix.width : LengthPrefix → Nat
  | .p1 => 1
  | .p2 => 2
  | .p4 => 4

/-- The schema type grammar (spec section 3). -/
inductive SchemaType where
  | uint (w : Nat)
  | int (w : Nat)
  | bool
  | unit
  | array (n : Nat) (t : SchemaType)
  | list (p : LengthPrefix) (t : SchemaType)
  | tuple (ts : List SchemaType)
  | struct (fs : List (String × SchemaType))
  | enum (vs : List (String × SchemaType))
  | str (p : LengthPrefix)
  | optional (t : SchemaType)
  | map (p : LengthPrefix) (k : SchemaType) (v : SchemaType)
  | accountAddress
  | contractAddress
  | amount
  | timestamp
  | duration

/-- The JSON-like values the schema codec produces and consumes. -/
inductive SchemaValue where
  | num (n : Int)
  | bool (b : Bool)
  | unit
  | bytes (bs : List Nat)
  | seq (vs : List SchemaValue)
  | record (fs : List (String × SchemaValue))
  | variant (name : String) (v : SchemaValue)
  | opt (o : Option SchemaValue)
  | pairs (ps : List (SchemaValue × SchemaValue))
  | contractAddr (index : Nat) (subindex : Nat)

/-- Enum discriminant width: 1 byte for up to 256 variants, else 2. -/
def discWidth (n : Nat) : Nat := if n ≤ 256 then 1 else 2

/-- Two's-complement reading of an unsigned `w`-byte value. -/
def decodeSigned (w u : Nat) : Int :=
  if 2 * u < 2 ^ (8 * w) then (u : Int) else (u : Int) - 2 ^ (8 * w)

/-- Zero-based index of the first variant with the given name (the
variant count if absent). -/
def variantIdx (name : String) : List (String × SchemaType) → Nat
  | [] => 0
  | p :: rest => if p.1 == name then 0 else variantIdx name rest + 1

mutual

/-- Encode a value against a schema node (garbage on non-conforming
input, which the conformance hypotheses of the round-trip law exclude). -/
def encodeValue : SchemaType → SchemaValue → List Nat
  | .uint w, .num n => encodeLE w n.toNat
  | .int w, .num n => encodeLE w (n.emod (2 ^ (8 * w))).toNat
  | .bool, .bool b => encodeBool b
  | .unit, .unit => []
  | .array _ t, .seq vs => encodeHom t vs
  | .list p t, .seq vs => encodeLE p.width vs.length ++ encodeHom t vs
  | .tuple ts, .seq vs => encodeHet ts vs
  | .struct fs, .record gs => encodeFields fs gs
  | .enum vs, .variant name v =>
    encodeLE (discWidth vs.length) (variantIdx name vs) ++
      encodeVariantPayload name v vs
  | .str p, .bytes bs => encodeLE p.width bs.length ++ bs
  | .optional _, .opt none => [0]
  | .optional t, .opt (some v) => 1 :: encodeValue t v
  | .map p k v, .pairs ps => encodeLE p.width ps.length ++ encodePairs k v ps
  | .accountAddress, .bytes bs => bs
  | .contractAddress, .contractAddr i s => encodeLE 8 i ++ encodeLE 8 s
  | .amount, .num n => encodeLE 8 n.toNat
  | .timestamp, .num n => encodeLE 8 n.toNat
  | .duration, .num n => encodeLE 8 n.toNat
  | _, _ => []
termination_by t v => (sizeOf t, sizeOf v)
decreasing_by
  all_goals first
    | decreasing_tactic
    | (cases p <;> decreasing_tactic)

/-- Encode a homogeneous element sequence (arrays and lists). -/
def encodeHom (t : SchemaType) : List SchemaValue → List Nat
  | [] => []
  | v :: rest => encodeValue t v ++ encodeHom t rest
termination_by vs => (sizeOf t, sizeOf vs)

/-- Encode a tuple's elements against its component types. -/
def encodeHet : List SchemaType → List SchemaValue → List Nat
  | t :: ts, v :: vs => encodeValue t v ++ encodeHet ts vs
  | _, _ => []
termination_by ts vs => (sizeOf ts, sizeOf vs)

/-- Encode a struct's fields in declared order. -/
def encodeFields : List (String × SchemaType) →
    List (String × SchemaValue) → List Nat
  | (_, t) :: fs, (_, v) :: gs => encodeValue t v ++ encodeFields fs gs
  | _, _ => []
termination_by fs gs => (sizeOf fs, sizeOf gs)

/-- Encode map entries as key/value pairs. -/
def encodePairs (k v : SchemaType) :
    List (SchemaValue × SchemaValue) → List Nat
  | [] => []
  | p :: ps => encodeValue k p.1 ++ encodeValue v p.2 ++ encodePairs k v ps
termination_by ps => (sizeOf k + sizeOf v + 1, sizeOf ps)

/-- Encode the payload of the first variant matching the name. -/
def encodeVariantPayload (name : String) (v : SchemaValue) :
    List (String × SchemaType) → List Nat
  | [] => []
  | (nm, t) :: rest =>
    if nm == name then encodeValue t v
    else encodeVariantPayload name v rest
termination_by vs => (sizeOf vs, sizeOf v)

end

mutual

/-- Decode a value against a schema node (spec section 4.2). -/
def decodeValue : SchemaType → List Nat →
    Except DErr (SchemaValue × List Nat)
  | .uint w, b =>
    match readLE w b with
    | .error e => .error e
    | .ok (u, r) => .ok (.num (u : Int), r)
  | .int w, b =>
    match readLE w b with
    | .error e => .error e
    | .ok (u, r) => .ok (.num (decodeSigned w u), r)
  | .bool, b =>
    match readLE 1 b with
    | .error e => .error e
    | .ok (u, r) =>
      if u = 0 then .ok (.bool false, r)
      else if u = 1 then .ok (.bool true, r)
      else .error .invalidBoolean
  | .unit, b => .ok (.unit, b)
  | .array n t, b =>
    match decodeCount t n b with
    | .error e => .error e
    | .ok (vs, r) => .ok (.seq vs, r)
  | .list p t, b =>
    match readLE p.width b with
    | .error e => .error e
    | .ok (m, r) =>
      match decodeCount t m r with
      | .error e => .error e
      | .ok (vs, r2) => .ok (.seq vs, r2)
  | .tuple ts, b =>
    match decodeHet ts b with
    | .error e => .error e
    | .ok (vs, r) => .ok (.seq vs, r)
  | .struct fs, b =>
    match decodeFields fs b with
    | .error e => .error e
    | .ok (gs, r) => .ok (.record gs, r)
  | .enum vs, b =>
    match readLE (discWidth vs.length) b with
    | .error e => .error e
    | .ok (d, r) => decodeVariantAt d vs r
  | .str p, b =>
    match readLE p.width b with
    | .error e => .error e
    | .ok (m, r) =>
      match readBytes m r with
      | .error e => .error e
      | .ok (bs, r2) => .ok (.bytes bs, r2)
  | .optional t, b =>
    match readLE 1 b with
    | .error e => .error e
    | .ok (u, r) =>
      if u = 0 then .ok (.opt none, r)
      else if u = 1 then
        match decodeValue t r with
        | .error e => .error e
        | .ok (v, r2) => .ok (.opt (some v), r2)
      else .error .invalidFlag
  | .map p k v, b =>
    match readLE p.width b with
    | .error e => .error e
    | .ok (m, r) =>
      match decodePairsN k v m r with
      | .error e => .error e
      | .ok (ps, r2) => .ok (.pairs ps, r2)
  | .accountAddress, b =>
    match readBytes 32 b with
    | .error e => .error e
    | .ok (bs, r) => .ok (.bytes bs, r)
  | .contractAddress, b =>
    match readLE 8 b with
    | .error e => .error e
    | .ok (i, r) =>
      match readLE 8 r with
      | .error e => .error e
      | .ok (s, r2) => .ok (.contractAddr i s, r2)
  | .amount, b =>
    match readLE 8 b with
    | .error e => .error e
    | .ok (u, r) => .ok (.num (u : Int), r)
  | .timestamp, b =>
    match readLE 8 b with
    | .error e => .error e
    | .ok (u, r) => .ok (.num (u : Int), r)
  | .duration, b =>
    match readLE 8 b with
    | .error e => .error e
    | .ok (u, r) => .ok (.num (u : Int), r)
termination_by t _ => (sizeOf t, 0)
decreasing_by
  all_goals first
    | decreasing_tactic
    | (cases p <;> decreasing_tactic)

/-- Decode exactly `n` values of one schema type. -/
def decodeCount (t : SchemaType) : Nat → List Nat →
    Except DErr (List SchemaValue × List Nat)
  | 0, b => .ok ([], b)
  | n + 1, b =>
    match decodeValue t b with
    | .error e => .error e
    | .ok (v, r) =>
      match decodeCount t n r with
      | .error e => .error e
      | .ok (vs, r2) => .ok (v :: vs, r2)
termination_by n _ => (sizeOf t, n + 1)

/-- Decode a tuple's components in order. -/
def decodeHet : List SchemaType → List Nat →
    Except DErr (List SchemaValue × List Nat)
  | [], b => .ok ([], b)
  | t :: ts, b =>
    match decodeValue t b with
    | .error e => .error e
    | .ok (v, r) =>
      match decodeHet ts r with
      | .error e => .error e
      | .ok (vs, r2) => .ok (v :: vs, r2)
termination_by ts _ => (sizeOf ts, 0)

/-- Decode a struct's fields in declared order, keyed by the declared
field names. -/
def decodeFields : List (String × SchemaType) → List Nat →
    Except DErr (List (String × SchemaValue) × List Nat)
  | [], b => .ok ([], b)
  | (nm, t) :: fs, b =>
    match decodeValue t b with
    | .error e => .error e
    | .ok (v, r) =>
      match decodeFields fs r with
      | .error e => .error e
      | .ok (gs, r2) => .ok ((nm, v) :: gs, r2)
termination_by fs _ => (sizeOf fs, 0)

/-- Decode `n` key/value pairs. -/
def decodePairsN (k v : SchemaType) : Nat → List Nat →
    Except DErr (List (SchemaValue × SchemaValue) × List Nat)
  | 0, b => .ok ([], b)
  | n + 1, b =>
    match decodeValue k b with
    | .error e => .error e
    | .ok (kv, r) =>
      match decodeValue v r with
      | .error e => .error e
      | .ok (vv, r2) =>
        match decodePairsN k v n r2 with
        | .error e => .error e
        | .ok (ps, r3) => .ok ((kv, vv) :: ps, r3)
termination_by n _ => (sizeOf k + sizeOf v + 1, n + 1)

/-- Select the variant at (zero-based) discriminant `d` and decode its
payload; a discriminant at or above the variant count is an
`UnknownVariantError`. -/
def decodeVariantAt (d : Nat) : List (String × SchemaType) → List Nat →
    Except DErr (SchemaValue × List Nat)
  | [], _ => .error .unknownVariant
  | (nm, t) :: rest, b =>
    if d = 0 then
      match decodeValue t b with
      | .error e => .error e
      | .ok (v, r) => .ok (.variant nm v, r)
    else decodeVariantAt (d - 1) rest b
termination_by vs _ => (sizeOf vs, 0)

end

mutual

/-- A value conforms to a schema node: the shape matches and every
number, length and discriminant is within its encodable range. -/
def conformsVal : SchemaType → SchemaValue → Bool
  | .uint w, .num n => decide (0 ≤ n) && decide (n < (2 ^ (8 * w) : Int))
  | .int w, .num n =>
    decide (1 ≤ w) && decide (-(2 ^ (8 * w) : Int) ≤ 2 * n) &&
      decide (2 * n < (2 ^ (8 * w) : Int))
  | .bool, .bool _ => true
  | .unit, .unit => true
  | .array n t, .seq vs => decide (vs.length = n) && conformsHom t vs
  | .list p t, .seq vs =>
    decide (vs.length < 2 ^ (8 * p.width)) && conformsHom t vs
  | .tuple ts, .seq vs => conformsHet ts vs
  | .struct fs, .record gs => conformsFields fs gs
  | .enum vs, .variant name v =>
    decide (vs.length ≤ 2 ^ 16) && conformsVariant name v vs
  | .str p, .bytes bs =>
    decide (bs.length < 2 ^ (8 * p.width)) && wfBytes bs
  | .optional _, .opt none => true
  | .optional t, .opt (some v) => conformsVal t v
  | .map p k v, .pairs ps =>
    decide (ps.length < 2 ^ (8 * p.width)) && conformsPairs k v ps
  | .accountAddress, .bytes bs => decide (bs.length = 32) && wfBytes bs
  | .contractAddress, .contractAddr i s =>
    decide (i < 2 ^ 64) && decide (s < 2 ^ 64)
  | .amount, .num n => decide (0 ≤ n) && decide (n < (2 ^ 64 : Int))
  | .timestamp, .num n => decide (0 ≤ n) && decide (n < (2 ^ 64 : Int))
  | .duration, .num n => decide (0 ≤ n) && decide (n < (2 ^ 64 : Int))
  | _, _ => false
termination_by t v => (sizeOf t, sizeOf v)
decreasing_by
  all_goals first
    | decreasing_tactic
    | (cases p <;> decreasing_tactic)

/-- Every element conforms to the element type. -/
def conformsHom (t : SchemaType) : List SchemaValue → Bool
  | [] => true
  | v :: rest => conformsVal t v && conformsHom t rest
termination_by vs => (sizeOf t, sizeOf vs)

/-- Component-wise conformance of a tuple (arity must match). -/
def conformsHet : List SchemaType → List SchemaValue → Bool
  | [], [] => true
  | t :: ts, v :: vs => conformsVal t v && conformsHet ts vs
  | _, _ => false
termination_by ts vs => (sizeOf ts, sizeOf vs)

/-- Field-wise conformance of a struct: names agree in order, each value
conforms. -/
def conformsFields : List (String × SchemaType) →
    List (String × SchemaValue) → Bool
  | [], [] => true
  | (nm, t) :: fs, (gm, v) :: gs =>
    (nm == gm) && conformsVal t v && conformsFields fs gs
  | _, _ => false
termination_by fs gs => (sizeOf fs, sizeOf gs)

/-- Pair-wise conformance of map entries. -/
def conformsPairs (k v : SchemaType) :
    List (SchemaValue × SchemaValue) → Bool
  | [] => true
  | p :: ps => conformsVal k p.1 && conformsVal v p.2 && conformsPairs k v ps
termination_by ps => (sizeOf k + sizeOf v + 1, sizeOf ps)

/-- The named variant exists and the payload conforms to the first
matching variant's type. -/
def conformsVariant (name : String) (v : SchemaValue) :
    List (String × SchemaType) → Bool
  | [] => false
  | (nm, t) :: rest =>
    if nm == name then conformsVal t v else conformsVariant name v rest
termination_by vs => (sizeOf vs, sizeOf v)

end

/-! ## Concrete instances used by the claim witnesses and counterexamples -/
/-- A well-formed credential-info record. -/
def cInfoEx : CredentialInfo :=
  { holderPubKey := List.replicate 32 7, holderRevocable := true,
    validFrom := 5, validUntil := some 9,
    metadataUrl := { url := [104, 105], hash := none } }

/-- A submission blob whose two credential blocks carry indices 1 then 0
(out of canonical order). -/
def badBlob : List Nat :=
  [0, 2, 1, 1, 0, 0, 1, 5, 0, 1, 0, 0, 1, 6] ++
    List.replicate 32 0 ++ [0, 0, 0, 0, 0, 0, 0, 1] ++
    List.replicate 8 0 ++ List.replicate 8 0 ++ [21, 0, 0]

/-- The transaction `badBlob` decodes to. -/
def badTxn : AccountTransaction :=
  AccountTransaction.mk
    (AccountTransactionHeader.mk (List.replicate 32 0) 1 0 0)
    (.registerData [])

/-- The signature map `badBlob` decodes to: the object rebuild has sorted
the credential indices. -/
def badSigs : AccountTransactionSignature :=
  [(0, [(0, [6])]), (1, [(0, [5])])]

/-- A well-formed transfer transaction. -/
def okTxn : AccountTransaction :=
  AccountTransaction.mk
    (AccountTransactionHeader.mk (List.replicate 32 1) 1 2 3)
    (.transfer (List.replicate 32 2) 100)

/-- A well-formed (canonically ordered) signature map. -/
def okSigs : AccountTransactionSignature :=
  [(0, [(0, [9, 9])]), (1, [(2, [8])])]

/-- A well-formed transaction header. -/
def hdrEx : AccountTransactionHeader :=
  AccountTransactionHeader.mk (List.replicate 32 0) 1 0 0

/-- A contract instance whose method list lacks the `supports` entrypoint. -/
def infoEx : InstanceInfo :=
  { name := "init_test", methods := ["test.other"] }

theorem length_encodeLE (w v : Nat) : (encodeLE w v).length = w := by
  induction w generalizing v with
  | zero => rfl
  | succ w ih => simp [encodeLE, ih]

theorem length_encodeBE (w v : Nat) : (encodeBE w v).length = w := by
  simp [encodeBE, length_encodeLE]

theorem wfBytes_encodeLE (w v : Nat) : wfBytes (encodeLE w v) = true := by
  induction w generalizing v with
  | zero => rfl
  | succ w ih =>
    simp only [encodeLE, wfBytes, List.all_cons, Bool.and_eq_true]
    exact ⟨by simpa using Nat.mod_lt v (by norm_num), ih _⟩

theorem decodeLE_encodeLE (w v : Nat) :
    decodeLE (encodeLE w v) = v % 256 ^ w := by
  induction w generalizing v with
  | zero => simp only [decodeLE, encodeLE, List.foldr_nil, pow_zero]; omega
  | succ w ih =>
    simp only [encodeLE, decodeLE, List.foldr_cons]
    have hih : List.foldr (fun b acc => b + 256 * acc) 0 (encodeLE w (v / 256))
        = v / 256 % 256 ^ w := ih (v / 256)
    rw [hih, pow_succ, Nat.mul_comm (256 ^ w) 256, Nat.mod_mul]

theorem encodeLE_decodeLE (bs : List Nat) (h : wfBytes bs = true) :
    encodeLE bs.length (decodeLE bs) = bs := by
  induction bs with
  | nil => rfl
  | cons b t ih =>
    simp only [wfBytes, List.all_cons, Bool.and_eq_true, decide_eq_true_eq] at h
    obtain ⟨hb, ht⟩ := h
    have ihe := ih ht
    simp only [List.length_cons, encodeLE, decodeLE, List.foldr_cons]
    have h1 : (b + 256 * List.foldr (fun b acc => b + 256 * acc) 0 t) % 256
        = b := by omega
    have h2 : (b + 256 * List.foldr (fun b acc => b + 256 * acc) 0 t) / 256
        = List.foldr (fun b acc => b + 256 * acc) 0 t := by omega
    rw [h1, h2]
    exact congrArg (List.cons b) ihe

theorem decodeLE_lt (bs : List Nat) (h : wfBytes bs = true) :
    decodeLE bs < 256 ^ bs.length := by
  induction bs with
  | nil => simp [decodeLE]
  | cons b t ih =>
    simp only [wfBytes, List.all_cons, Bool.and_eq_true, decide_eq_true_eq] at h
    obtain ⟨hb, ht⟩ := h
    have hX := ih ht
    simp only [decodeLE, List.foldr_cons, List.length_cons, pow_succ] at hX ⊢
    generalize hP : (256 : Nat) ^ t.length = P at hX ⊢
    omega

theorem decBind_eq_ok {α β : Type} (p : Dec α) (f : α → Dec β) (b : List Nat)
    (c : β) (r : List Nat) :
    decBind p f b = .ok (c, r) ↔
      ∃ a m, p b = .ok (a, m) ∧ f a m = .ok (c, r) := by
  unfold decBind
  cases hp : p b with
  | error e => simp
  | ok am =>
    obtain ⟨a, m⟩ := am
    constructor
    · intro h; exact ⟨a, m, rfl, h⟩
    · rintro ⟨a2, m2, h1, h2⟩
      rw [Except.ok.injEq, Prod.mk.injEq] at h1
      obtain ⟨rfl, rfl⟩ := h1
      exact h2

theorem decBind_eq_error {α β : Type} (p : Dec α) (f : α → Dec β)
    (b : List Nat) (e : DErr) :
    decBind p f b = .error e ↔
      p b = .error e ∨ ∃ a m, p b = .ok (a, m) ∧ f a m = .error e := by
  unfold decBind
  cases hp : p b with
  | error e2 => simp
  | ok am =>
    obtain ⟨a, m⟩ := am
    constructor
    · intro h; exact Or.inr ⟨a, m, rfl, h⟩
    · rintro (h | ⟨a2, m2, h1, h2⟩)
      · cases h
      · rw [Except.ok.injEq, Prod.mk.injEq] at h1
        obtain ⟨rfl, rfl⟩ := h1
        exact h2

/-- Reading exactly the prepended bytes succeeds and leaves the rest. -/
theorem readBytes_append (xs r : List Nat) :
    readBytes xs.length (xs ++ r) = .ok (xs, r) := by
  unfold readBytes
  rw [if_pos (by simp), List.take_left, List.drop_left]

theorem readLE_append (w v : Nat) (r : List Nat) (h : v < 256 ^ w) :
    readLE w (encodeLE w v ++ r) = .ok (v, r) := by
  have hb : readBytes w (encodeLE w v ++ r) = .ok (encodeLE w v, r) := by
    have hh := readBytes_append (encodeLE w v) r
    rwa [length_encodeLE] at hh
  show decBind (readBytes w) (fun bs => decPure (decodeLE bs))
      (encodeLE w v ++ r) = _
  rw [decBind_eq_ok]
  exact ⟨encodeLE w v, r, hb, by
    simp [decPure, decodeLE_encodeLE, Nat.mod_eq_of_lt h]⟩

theorem dec_bind_eq {α β : Type} (p : Dec α) (f : α → Dec β) :
    p >>= f = decBind p f := rfl

theorem dec_pure_eq {α : Type} (a : α) : (pure a : Dec α) = decPure a := rfl

theorem decodesTo_bind {α β : Type} {p : Dec α} {f : α → Dec β}
    {e1 e2 : List Nat} {v : α} {w : β}
    (h1 : DecodesTo p e1 v) (h2 : DecodesTo (f v) e2 w) :
    DecodesTo (decBind p f) (e1 ++ e2) w := by
  intro r
  rw [List.append_assoc]
  unfold decBind
  rw [h1 (e2 ++ r)]
  exact h2 r

theorem decodesTo_pure {α : Type} (v : α) : DecodesTo (decPure v) [] v :=
  fun _ => rfl

theorem decodesTo_congr {α : Type} {p : Dec α} {a b : List Nat}
    {v : α} (h : DecodesTo p a v) (he : a = b) : DecodesTo p b v :=
  he ▸ h

theorem readBytes_decodes {xs : List Nat} {n : Nat} (h : xs.length = n) :
    DecodesTo (readBytes n) xs xs := by
  intro r
  rw [← h]
  exact readBytes_append xs r

theorem readLE_decodes {w v : Nat} (h : v < 256 ^ w) :
    DecodesTo (readLE w) (encodeLE w v) v :=
  fun r => readLE_append w v r h

theorem readI64LE_decodes {t : Int} (h0 : 0 ≤ t) (h1 : t < 2 ^ 63) :
    DecodesTo readI64LE (encodeLE 8 t.toNat) t := by
  have hcond : t.toNat < 2 ^ 63 := by omega
  have hle : (2 : Nat) ^ 63 ≤ 256 ^ 8 := by norm_num
  have hlt : t.toNat < 256 ^ 8 := lt_of_lt_of_le hcond hle
  have hb : DecodesTo (decBind (readLE 8) (fun u => decPure
      (if u < 2 ^ 63 then (u : Int) else (u : Int) - 2 ^ 64)))
      (encodeLE 8 t.toNat ++ []) t := by
    refine decodesTo_bind (readLE_decodes hlt) ?_
    have heq : (if t.toNat < 2 ^ 63 then ((t.toNat : Int))
        else ((t.toNat : Int) - 2 ^ 64)) = t := by
      rw [if_pos hcond, Int.toNat_of_nonneg h0]
    rw [heq]
    exact decodesTo_pure t
  exact decodesTo_congr hb (by simp)

/-! ## CIS-4 round-trip facts -/
theorem deserializeDate_decodes {t : Int} (h : wfDate t = true) :
    DecodesTo deserializeDate (serializeDate t) t := by
  simp only [wfDate, Bool.and_eq_true, decide_eq_true_eq] at h
  exact readI64LE_decodes h.1 (by have := h.2; omega)

theorem deserializeOptional_decodes {α : Type} {fn : Dec α}
    {ser : α → List Nat} {o : Option α}
    (h : ∀ a ∈ o, DecodesTo fn (ser a) a) :
    DecodesTo (deserializeOptional fn) (makeSerializeOptional ser o) o := by
  cases o with
  | none =>
    unfold deserializeOptional
    simp only [dec_bind_eq, dec_pure_eq]
    refine decodesTo_congr (a := [0] ++ []) ?_
      (by simp [makeSerializeOptional])
    refine decodesTo_bind (p := readLE 1) (v := 0)
      (decodesTo_congr (readLE_decodes (by norm_num)) (by decide)) ?_
    exact decodesTo_pure none
  | some a =>
    unfold deserializeOptional
    simp only [dec_bind_eq, dec_pure_eq]
    refine decodesTo_congr (a := [1] ++ (ser a ++ [])) ?_
      (by simp [makeSerializeOptional])
    refine decodesTo_bind (p := readLE 1) (v := 1)
      (decodesTo_congr (readLE_decodes (by norm_num)) (by decide)) ?_
    exact decodesTo_bind (h a rfl) (decodesTo_pure (some a))

theorem deserializeCIS2MetadataUrl_decodes {m : MetadataUrl}
    (h : m.wf = true) :
    DecodesTo deserializeCIS2MetadataUrl (serializeCIS2MetadataUrl m) m := by
  obtain ⟨url, hsh⟩ := m
  simp only [MetadataUrl.wf, Bool.and_eq_true, decide_eq_true_eq] at h
  obtain ⟨⟨hlen, hwf⟩, hhash⟩ := h
  unfold deserializeCIS2MetadataUrl serializeCIS2MetadataUrl
    packBufferWithWord16Length
  simp only [dec_bind_eq, dec_pure_eq]
  cases hsh with
  | none =>
    refine decodesTo_congr (a := encodeLE 2 url.length ++
      (url ++ ([0] ++ []))) ?_ (by simp [makeSerializeOptional])
    refine decodesTo_bind (readLE_decodes (by simpa using hlen)) ?_
    refine decodesTo_bind (readBytes_decodes rfl) ?_
    refine decodesTo_bind (p := readLE 1) (v := 0)
      (decodesTo_congr (readLE_decodes (by norm_num)) (by decide)) ?_
    exact decodesTo_pure _
  | some hv =>
    simp only [Bool.and_eq_true, decide_eq_true_eq] at hhash
    refine decodesTo_congr (a := encodeLE 2 url.length ++
      (url ++ ([1] ++ (hv ++ [])))) ?_ (by simp [makeSerializeOptional])
    refine decodesTo_bind (readLE_decodes (by simpa using hlen)) ?_
    refine decodesTo_bind (readBytes_decodes rfl) ?_
    refine decodesTo_bind (p := readLE 1) (v := 1)
      (decodesTo_congr (readLE_decodes (by norm_num)) (by decide)) ?_
    refine decodesTo_bind (readBytes_decodes hhash.1) ?_
    exact decodesTo_pure _

theorem deserializeCIS4CredentialInfo_decodes {c : CredentialInfo}
    (h : c.wf = true) :
    DecodesTo deserializeCIS4CredentialInfo
      (serializeCIS4CredentialInfo c) c := by
  obtain ⟨key, rev, vfrom, vuntil, murl⟩ := c
  simp only [CredentialInfo.wf, Bool.and_eq_true, decide_eq_true_eq] at h
  obtain ⟨⟨⟨⟨hkey, hkwf⟩, hfrom⟩, huntil⟩, hurl⟩ := h
  unfold deserializeCIS4CredentialInfo serializeCIS4CredentialInfo
  simp only [dec_bind_eq, dec_pure_eq]
  refine decodesTo_congr (a := key ++
    (encodeBool rev ++ (serializeDate vfrom ++
      (makeSerializeOptional serializeDate vuntil ++
        (serializeCIS2MetadataUrl murl ++ []))))) ?_ (by simp)
  refine decodesTo_bind (readBytes_decodes hkey) ?_
  refine decodesTo_bind (p := readLE 1)
    (v := if rev then 1 else 0) ?_ ?_
  · refine decodesTo_congr (readLE_decodes ?_) ?_
    · cases rev <;> norm_num
    · cases rev <;> rfl
  refine decodesTo_bind (deserializeDate_decodes hfrom) ?_
  refine decodesTo_bind (deserializeOptional_decodes ?_) ?_
  · intro a ha
    cases vuntil with
    | none => cases ha
    | some t =>
      cases ha
      exact deserializeDate_decodes huntil
  refine decodesTo_bind (deserializeCIS2MetadataUrl_decodes hurl) ?_
  have hrev : ((if rev then 1 else 0 : Nat) == 1) = rev := by
    cases rev <;> rfl
  rw [hrev]
  exact decodesTo_pure _

/-! ## Duration facts -/
theorem isDigitChar_digitChar {d : Nat} (h : d < 10) :
    isDigitChar (digitChar d) = true := by
  interval_cases d <;> decide

theorem natReprAux_digits (fuel : Nat) :
    ∀ n, ∀ c ∈ natReprAux n fuel, isDigitChar c = true := by
  induction fuel with
  | zero => intro n c hc; cases hc
  | succ fuel ih =>
    intro n c hc
    unfold natReprAux at hc
    by_cases hn : n < 10
    · rw [if_pos hn] at hc
      obtain rfl : c = digitChar n := List.mem_singleton.mp hc
      exact isDigitChar_digitChar hn
    · rw [if_neg hn] at hc
      rcases List.mem_append.mp hc with h1 | h2
      · exact ih (n / 10) c h1
      · obtain rfl : c = digitChar (n % 10) := List.mem_singleton.mp h2
        exact isDigitChar_digitChar (Nat.mod_lt n (by norm_num))

theorem natReprAux_ne_nil (n fuel : Nat) (h : 0 < fuel) :
    natReprAux n fuel ≠ [] := by
  cases fuel with
  | zero => omega
  | succ fuel =>
    unfold natReprAux
    by_cases hn : n < 10
    · rw [if_pos hn]; simp
    · rw [if_neg hn]; simp

theorem natRepr_digits (n : Nat) : ∀ c ∈ natRepr n, isDigitChar c = true :=
  natReprAux_digits (n + 1) n

theorem natRepr_ne_nil (n : Nat) : natRepr n ≠ [] :=
  natReprAux_ne_nil n (n + 1) (by omega)

theorem digit_ne_space {c : Char} (h : isDigitChar c = true) : c ≠ ' ' := by
  intro hc
  rw [hc] at h
  cases h

theorem splitOnSpace_append (xs ys : List Char) (h : ∀ c ∈ xs, c ≠ ' ') :
    splitOnSpace (xs ++ ' ' :: ys) = xs :: splitOnSpace ys := by
  induction xs with
  | nil => simp [splitOnSpace]
  | cons c rest ih =>
    have hc : c ≠ ' ' := h c (List.mem_cons_self c rest)
    have hrest : ∀ d ∈ rest, d ≠ ' ' := fun d hd => h d (List.mem_cons_of_mem c hd)
    rw [List.cons_append]
    have hstep : splitOnSpace (c :: (rest ++ ' ' :: ys)) =
        if c = ' ' then [] :: splitOnSpace (rest ++ ' ' :: ys)
        else
          match splitOnSpace (rest ++ ' ' :: ys) with
          | g :: gs => (c :: g) :: gs
          | [] => [[c]] := rfl
    rw [hstep, if_neg hc, ih hrest]

theorem parseMeasure_all_digits (ds : List Char) (hne : ds ≠ [])
    (hd : ∀ c ∈ ds, isDigitChar c = true) : parseMeasure ds = none := by
  have htake : ds.takeWhile isDigitChar = ds :=
    List.takeWhile_eq_self_iff.mpr hd
  have hdrop : ds.dropWhile isDigitChar = [] :=
    List.dropWhile_eq_nil_iff.mpr hd
  unfold parseMeasure
  rw [htake, hdrop]
  rw [if_neg (by simpa [List.isEmpty_iff] using hne)]
  rfl

theorem duration_schema_roundtrip_throws (v : Nat) :
    Duration.fromSchemaValue (Duration.toSchemaValue v) =
      .error "Invalid duration format" := by
  unfold Duration.fromSchemaValue Duration.fromString Duration.toSchemaValue
  have hsplit : splitOnSpace (natRepr v ++ [' ', 'm', 's']) =
      natRepr v :: splitOnSpace ['m', 's'] := by
    have : (([' ', 'm', 's'] : List Char)) = ' ' :: ['m', 's'] := rfl
    rw [this]
    exact splitOnSpace_append (natRepr v) ['m', 's']
      (fun c hc => digit_ne_space (natRepr_digits v c hc))
  rw [hsplit]
  show sumMeasures (natRepr v :: splitOnSpace ['m', 's']) = _
  unfold sumMeasures
  rw [parseMeasure_all_digits (natRepr v) (natRepr_ne_nil v)
    (natRepr_digits v)]

/-! ## Exhaustion-based list decoding facts -/
theorem except_bind_ok {ε α β : Type} (a : α) (f : α → Except ε β) :
    (Except.ok a >>= f : Except ε β) = f a := rfl

theorem readLE_decodes_any {w : Nat} {xs : List Nat} (h : xs.length = w) :
    DecodesTo (readLE w) xs (decodeLE xs) := by
  unfold readLE
  simp only [dec_bind_eq, dec_pure_eq]
  exact decodesTo_congr (decodesTo_bind (readBytes_decodes h)
    (decodesTo_pure _)) (by simp)

theorem readI64LE_decodes_any {xs : List Nat} (h : xs.length = 8) :
    DecodesTo readI64LE xs (int64OfBytes xs) := by
  intro r
  unfold readI64LE int64OfBytes
  simp only [dec_bind_eq]
  unfold decBind
  rw [readLE_decodes_any h r]
  rfl

theorem revocationKey_decodes {bl : List Nat} (h : bl.length = 40) :
    DecodesTo deserializeCIS4RevocationKey bl
      (RevocationKeyWithNonce.mk (bl.take 32) (int64OfBytes (bl.drop 32))) := by
  unfold deserializeCIS4RevocationKey deserializeEd25519PublicKey
  simp only [dec_bind_eq, dec_pure_eq]
  refine decodesTo_congr (a := bl.take 32 ++ (bl.drop 32 ++ [])) ?_
    (by simp)
  refine decodesTo_bind (readBytes_decodes (by simp [h])) ?_
  refine decodesTo_bind (readI64LE_decodes_any (by simp [h])) ?_
  exact decodesTo_pure _

theorem makeDeserializeListResponse_blocks {α : Type} (item : Dec α) :
    ∀ (blocks : List (List Nat)) (vals : List α),
      List.Forall₂ (fun bl v => bl ≠ [] ∧ DecodesTo item bl v) blocks vals →
      makeDeserializeListResponse item blocks.flatten = .ok vals := by
  intro blocks vals h
  induction h with
  | nil => simp [makeDeserializeListResponse]
  | @cons bl v bls vs hpair hrest ih =>
    obtain ⟨hne, hdec⟩ := hpair
    rw [List.flatten_cons]
    have hbne : bl ++ bls.flatten ≠ [] := by
      intro hnil
      exact hne (List.append_eq_nil.mp hnil).1
    have hblen : 0 < bl.length := List.length_pos.mpr hne
    rw [makeDeserializeListResponse]
    rw [if_neg (by simp only [List.isEmpty_iff]; exact hbne)]
    simp only [hdec bls.flatten]
    rw [dif_pos (by simp only [List.length_append]; omega)]
    rw [ih]
    rfl

theorem makeDeserializeListResponseBuf_blocks {α : Type}
    (item : List Nat → Except DErr (α × Nat)) :
    ∀ (blocks : List (List Nat)) (vals : List α),
      List.Forall₂ (fun bl v => bl ≠ [] ∧ DecodesToBuf item bl v)
        blocks vals →
      makeDeserializeListResponseBuf item blocks.flatten = .ok vals := by
  intro blocks vals h
  induction h with
  | nil => simp [makeDeserializeListResponseBuf]
  | @cons bl v bls vs hpair hrest ih =>
    obtain ⟨hne, hdec⟩ := hpair
    rw [List.flatten_cons]
    have hbne : bl ++ bls.flatten ≠ [] := by
      intro hnil
      exact hne (List.append_eq_nil.mp hnil).1
    have hblen : 0 < bl.length := List.length_pos.mpr hne
    rw [makeDeserializeListResponseBuf]
    rw [dif_neg (by simp only [List.isEmpty_iff]; exact hbne)]
    simp only [hdec bls.flatten]
    rw [dif_pos hblen, List.drop_left, ih]
    rfl

/-- Existence form: blocks that each decode yield one value per block. -/
theorem forall₂_of_blocks {α : Type} {P : List Nat → α → Prop}
    (blocks : List (List Nat)) (h : ∀ bl ∈ blocks, ∃ v, P bl v) :
    ∃ vals, List.Forall₂ P blocks vals ∧ vals.length = blocks.length := by
  induction blocks with
  | nil => exact ⟨[], .nil, rfl⟩
  | cons bl bls ih =>
    obtain ⟨v, hv⟩ := h bl (List.mem_cons_self bl bls)
    obtain ⟨vals, hvals, hlen⟩ :=
      ih (fun b hb => h b (List.mem_cons_of_mem bl hb))
    exact ⟨v :: vals, .cons hv hvals, by simp [hlen]⟩

theorem readU64At_append (pre xs tail : List Nat) (h : xs.length = 8) :
    readBigUInt64LEAt (pre ++ (xs ++ tail)) pre.length =
      .ok (decodeLE xs) := by
  unfold readBigUInt64LEAt
  rw [if_pos (by simp [h])]
  congr 1
  rw [List.drop_left, ← h, List.take_left]

theorem readAddresses_encode (addrs : List ContractAddress) :
    ∀ (pre tail : List Nat),
      (∀ a ∈ addrs, a.index < 2 ^ 64 ∧ a.subindex < 2 ^ 64) →
      readAddresses (pre ++ (encodeContractAddresses addrs ++ tail))
        pre.length addrs.length = .ok addrs := by
  induction addrs with
  | nil => intro pre tail _; simp [readAddresses]
  | cons a rest ih =>
    intro pre tail hwf
    obtain ⟨hidx, hsub⟩ := hwf a (List.mem_cons_self a rest)
    have hwfr := fun b hb => hwf b (List.mem_cons_of_mem a hb)
    have hflat : encodeContractAddresses (a :: rest) ++ tail =
        encodeLE 8 a.index ++ (encodeLE 8 a.subindex ++
          (encodeContractAddresses rest ++ tail)) := by
      simp [encodeContractAddresses, encodeContractAddress,
        List.append_assoc]
    have h1 : readBigUInt64LEAt
        (pre ++ (encodeContractAddresses (a :: rest) ++ tail))
        pre.length = .ok a.index := by
      rw [hflat, readU64At_append _ _ _ (length_encodeLE 8 a.index)]
      rw [decodeLE_encodeLE]
      congr 1
      have : (256 : Nat) ^ 8 = 2 ^ 64 := by norm_num
      rw [this]
      exact Nat.mod_eq_of_lt hidx
    have h2 : readBigUInt64LEAt
        (pre ++ (encodeContractAddresses (a :: rest) ++ tail))
        (pre.length + 8) = .ok a.subindex := by
      have hres : pre ++ (encodeContractAddresses (a :: rest) ++ tail) =
          (pre ++ encodeLE 8 a.index) ++ (encodeLE 8 a.subindex ++
            (encodeContractAddresses rest ++ tail)) := by
        rw [hflat]; simp [List.append_assoc]
      have hlen : (pre ++ encodeLE 8 a.index).length = pre.length + 8 := by
        simp [length_encodeLE]
      rw [hres, ← hlen, readU64At_append _ _ _ (length_encodeLE 8 a.subindex)]
      rw [decodeLE_encodeLE]
      congr 1
      have : (256 : Nat) ^ 8 = 2 ^ 64 := by norm_num
      rw [this]
      exact Nat.mod_eq_of_lt hsub
    have h3 : readAddresses
        (pre ++ (encodeContractAddresses (a :: rest) ++ tail))
        (pre.length + 16) rest.length = .ok rest := by
      have hres : pre ++ (encodeContractAddresses (a :: rest) ++ tail) =
          (pre ++ (encodeLE 8 a.index ++ encodeLE 8 a.subindex)) ++
            (encodeContractAddresses rest ++ tail) := by
        rw [hflat]; simp [List.append_assoc]
      have hlen : (pre ++ (encodeLE 8 a.index ++ encodeLE 8 a.subindex)).length
          = pre.length + 16 := by
        simp [length_encodeLE]
      rw [hres, ← hlen]
      exact ih _ _ hwfr
    show readAddresses _ _ (rest.length + 1) = _
    unfold readAddresses
    rw [h1, except_bind_ok, h2, except_bind_ok, h3, except_bind_ok]

theorem readAddresses_ok_of_length (n : Nat) :
    ∀ (buffer : List Nat) (base : Nat), base + 16 * n ≤ buffer.length →
      ∃ addrs, readAddresses buffer base n = .ok addrs ∧
        addrs.length = n := by
  induction n with
  | zero => intro buffer base _; exact ⟨[], rfl, rfl⟩
  | succ n ih =>
    intro buffer base hlen
    obtain ⟨addrs, haddrs, hcnt⟩ := ih buffer (base + 16) (by omega)
    refine ⟨ContractAddress.mk (decodeLE ((buffer.drop base).take 8))
      (decodeLE ((buffer.drop (base + 8)).take 8)) :: addrs, ?_, by simp [hcnt]⟩
    show readAddresses _ _ (n + 1) = _
    unfold readAddresses
    rw [show readBigUInt64LEAt buffer base =
        .ok (decodeLE ((buffer.drop base).take 8)) from by
      unfold readBigUInt64LEAt; rw [if_pos (by omega)]]
    rw [except_bind_ok]
    rw [show readBigUInt64LEAt buffer (base + 8) =
        .ok (decodeLE ((buffer.drop (base + 8)).take 8)) from by
      unfold readBigUInt64LEAt; rw [if_pos (by omega)]]
    rw [except_bind_ok, haddrs, except_bind_ok]

theorem supportResultItem_tag0 (rest : List Nat) :
    supportResultItem (0 :: rest) = .ok (.noSupport, 1) := by
  unfold supportResultItem readUInt8At
  rw [dif_pos (by simp)]
  rfl

theorem supportResultItem_tag1 (rest : List Nat) :
    supportResultItem (1 :: rest) = .ok (.support, 1) := by
  unfold supportResultItem readUInt8At
  rw [dif_pos (by simp)]
  rfl

theorem supportResultItem_tagBig {t : Nat} (rest : List Nat) (h : 2 < t) :
    supportResultItem (t :: rest) = .error .invalidTag := by
  unfold supportResultItem readUInt8At
  rw [dif_pos (by simp)]
  show (if (t :: rest)[0] > 2 then (.error .invalidTag : Except DErr _)
    else _) = _
  rw [List.getElem_cons_zero, if_pos h]

theorem supportResultItem_tag2 (n : Nat) (addrs : List ContractAddress)
    (tail : List Nat) (hn : addrs.length = n)
    (hwf : ∀ a ∈ addrs, a.index < 2 ^ 64 ∧ a.subindex < 2 ^ 64) :
    supportResultItem ((2 :: n :: encodeContractAddresses addrs) ++ tail) =
      .ok (.supportBy addrs, 2 + 16 * n) := by
  have hread : readAddresses ([2, n] ++ (encodeContractAddresses addrs ++
      tail)) 2 addrs.length = .ok addrs :=
    readAddresses_encode addrs [2, n] tail hwf
  rw [hn] at hread
  have hbuf : (2 :: n :: encodeContractAddresses addrs) ++ tail =
      [2, n] ++ (encodeContractAddresses addrs ++ tail) := by simp
  unfold supportResultItem readUInt8At
  rw [dif_pos (by simp)]
  rw [except_bind_ok]
  norm_num
  rw [except_bind_ok]
  rw [show (2 :: n :: (encodeContractAddresses addrs ++ tail)) =
    [2, n] ++ (encodeContractAddresses addrs ++ tail) from rfl]
  rw [hread, except_bind_ok]

theorem readU64At_within {bl tail : List Nat} {i : Nat}
    (h : i + 8 ≤ bl.length) :
    readBigUInt64LEAt (bl ++ tail) i = readBigUInt64LEAt bl i := by
  unfold readBigUInt64LEAt
  rw [if_pos (by simp only [List.length_append]; omega), if_pos h]
  congr 1
  rw [List.drop_append_eq_append_drop, List.take_append_eq_append_take]
  have h1 : i - bl.length = 0 := by omega
  have h2 : 8 - (bl.drop i).length = 0 := by
    simp only [List.length_drop]; omega
  rw [h1, h2]
  simp

theorem readAddresses_within {bl tail : List Nat} :
    ∀ (n base : Nat), base + 16 * n ≤ bl.length →
      readAddresses (bl ++ tail) base n = readAddresses bl base n := by
  intro n
  induction n with
  | zero => intro base _; rfl
  | succ n ih =>
    intro base h
    show readAddresses _ _ (n + 1) = readAddresses _ _ (n + 1)
    unfold readAddresses
    rw [readU64At_within (by omega), readU64At_within (by omega),
      ih (base + 16) (by omega)]

theorem supportResultItem_tag2_raw (n : Nat) (rest tail : List Nat)
    (hlen : rest.length = 16 * n) :
    supportResultItem ((2 :: n :: rest) ++ tail) =
      (readAddresses (2 :: n :: rest) 2 n).map
        (fun addrs => (.supportBy addrs, 2 + 16 * n)) := by
  unfold supportResultItem readUInt8At
  rw [dif_pos (by simp), except_bind_ok]
  norm_num
  rw [except_bind_ok]
  rw [show (2 :: n :: (rest ++ tail)) = (2 :: n :: rest) ++ tail from rfl]
  rw [readAddresses_within n 2 (by simp [hlen]; omega)]
  cases hR : readAddresses (2 :: n :: rest) 2 n with
  | error e => rfl
  | ok addrs => rfl

theorem supportBlock_decodes {bl : List Nat} (h : supportBlock bl = true) :
    bl ≠ [] ∧ ∃ v, DecodesToBuf supportResultItem bl v := by
  match bl, h with
  | [0], _ =>
    exact ⟨by simp, ⟨.noSupport, fun tail => supportResultItem_tag0 tail⟩⟩
  | [1], _ =>
    exact ⟨by simp, ⟨.support, fun tail => supportResultItem_tag1 tail⟩⟩
  | 2 :: n :: rest, h =>
    have hlen : rest.length = 16 * n := by simpa [supportBlock] using h
    obtain ⟨addrs, ha, hcnt⟩ := readAddresses_ok_of_length n
      (2 :: n :: rest) 2 (by simp [hlen]; omega)
    refine ⟨by simp, ⟨.supportBy addrs, fun tail => ?_⟩⟩
    rw [supportResultItem_tag2_raw n rest tail hlen, ha]
    have hL : (2 :: n :: rest).length = 2 + 16 * n := by simp [hlen]; omega
    rw [hL]
    rfl

theorem revKeyBlock_decodes {bl : List Nat} (h : revKeyBlock bl = true) :
    bl ≠ [] ∧ ∃ v, DecodesTo deserializeCIS4RevocationKey bl v := by
  have hlen : bl.length = 40 := by simpa [revKeyBlock] using h
  constructor
  · intro hnil; rw [hnil] at hlen; cases hlen
  · exact ⟨_, revocationKey_decodes hlen⟩

theorem deserializeSupportResult_tagBig {t : Nat} (rest : List Nat)
    (h : 2 < t) :
    deserializeSupportResult (t :: rest) = .error .invalidTag := by
  unfold deserializeSupportResult
  rw [makeDeserializeListResponseBuf]
  rw [dif_neg (by simp)]
  rw [supportResultItem_tagBig rest h]

theorem consumes_readBytes (n : Nat) : Consumes (readBytes n) n := by
  intro b v r h
  unfold readBytes at h
  by_cases hc : n ≤ b.length
  · rw [if_pos hc] at h
    obtain ⟨rfl, rfl⟩ : v = b.take n ∧ r = b.drop n := by
      rw [Except.ok.injEq, Prod.mk.injEq] at h
      exact ⟨h.1.symm, h.2.symm⟩
    simp only [List.length_drop]
    omega
  · rw [if_neg hc] at h; cases h

theorem consumes_pure {α : Type} (a : α) : Consumes (decPure a) 0 := by
  intro b v r h
  obtain ⟨rfl, rfl⟩ : v = a ∧ r = b := by
    unfold decPure at h
    rw [Except.ok.injEq, Prod.mk.injEq] at h
    exact ⟨h.1.symm, h.2.symm⟩
  omega

theorem consumes_fail {α : Type} (e : DErr) (k : Nat) :
    Consumes (decFail (α := α) e) k := by
  intro b v r h
  cases h

theorem consumes_mono {α : Type} {p : Dec α} {k j : Nat} (h : Consumes p k)
    (hj : j ≤ k) : Consumes p j := by
  intro b v r hb
  have := h b v r hb
  omega

theorem consumes_bind {α β : Type} {p : Dec α} {f : α → Dec β} {k1 k2 : Nat}
    (h1 : Consumes p k1) (h2 : ∀ a, Consumes (f a) k2) :
    Consumes (decBind p f) (k1 + k2) := by
  intro b v r hb
  rw [decBind_eq_ok] at hb
  obtain ⟨a, m, hm, hf⟩ := hb
  have t1 := h1 b a m hm
  have t2 := h2 a m v r hf
  omega

theorem errs_readBytes (n : Nat) : ErrsIn (readBytes n) UorC := by
  intro b e h
  unfold readBytes at h
  by_cases hc : n ≤ b.length
  · rw [if_pos hc] at h; cases h
  · rw [if_neg hc] at h
    injection h with h
    exact Or.inl h.symm

theorem errs_pure {α : Type} (a : α) (S : DErr → Prop) :
    ErrsIn (decPure a) S := by
  intro b e h
  cases h

theorem errs_fail {α : Type} {e : DErr} {S : DErr → Prop} (hs : S e) :
    ErrsIn (decFail (α := α) e) S := by
  intro b e2 h
  injection h with h
  rw [← h]
  exact hs

theorem errs_bind {α β : Type} {p : Dec α} {f : α → Dec β} {S : DErr → Prop}
    (h1 : ErrsIn p S) (h2 : ∀ a, ErrsIn (f a) S) :
    ErrsIn (decBind p f) S := by
  intro b e hb
  rw [decBind_eq_error] at hb
  rcases hb with hb | ⟨a, m, hm, hf⟩
  · exact h1 b e hb
  · exact h2 a m e hf

theorem consumes_readLE (w : Nat) : Consumes (readLE w) w := by
  have := consumes_bind (consumes_readBytes w)
    (fun bs => consumes_pure (decodeLE bs))
  unfold readLE
  simpa using this

theorem errs_readLE (w : Nat) : ErrsIn (readLE w) UorC := by
  have := errs_bind (errs_readBytes w)
    (fun bs => errs_pure (decodeLE bs) UorC)
  unfold readLE
  simpa using this

theorem consumes_readI64LE : Consumes readI64LE 8 := by
  unfold readI64LE
  simp only [dec_bind_eq, dec_pure_eq]
  exact consumes_mono (consumes_bind (consumes_readLE 8)
    (fun u => consumes_pure _)) (by omega)

theorem errs_readI64LE : ErrsIn readI64LE UorC := by
  unfold readI64LE
  simp only [dec_bind_eq, dec_pure_eq]
  exact errs_bind (errs_readLE 8) (fun u => errs_pure _ UorC)

theorem consumes_metadataUrl : Consumes deserializeCIS2MetadataUrl 3 := by
  unfold deserializeCIS2MetadataUrl
  simp only [dec_bind_eq, dec_pure_eq]
  have : (2 : Nat) + (0 + (1 + 0)) = 3 := by norm_num
  rw [← this]
  refine consumes_bind (consumes_readLE 2) (fun n => ?_)
  refine consumes_bind (consumes_mono (consumes_readBytes n) (by omega))
    (fun url => ?_)
  refine consumes_bind (consumes_readLE 1) (fun flag => ?_)
  by_cases h1 : (flag == 1) = true
  · rw [if_pos h1]
    exact consumes_mono (consumes_bind (consumes_readBytes 32)
      (fun h => consumes_pure _)) (by omega)
  · rw [if_neg h1]
    by_cases h0 : (flag == 0) = true
    · rw [if_pos h0]; exact consumes_pure _
    · rw [if_neg h0]; exact consumes_fail _ 0

theorem errs_metadataUrl : ErrsIn deserializeCIS2MetadataUrl UorC := by
  unfold deserializeCIS2MetadataUrl
  simp only [dec_bind_eq, dec_pure_eq]
  refine errs_bind (errs_readLE 2) (fun n => ?_)
  refine errs_bind (errs_readBytes n) (fun url => ?_)
  refine errs_bind (errs_readLE 1) (fun flag => ?_)
  by_cases h1 : (flag == 1) = true
  · rw [if_pos h1]
    exact errs_bind (errs_readBytes 32) (fun h => errs_pure _ _)
  · rw [if_neg h1]
    by_cases h0 : (flag == 0) = true
    · rw [if_pos h0]; exact errs_pure _ _
    · rw [if_neg h0]; exact errs_fail (Or.inr rfl)

theorem consumes_optional {α : Type} {fn : Dec α} (h : Consumes fn 0) :
    Consumes (deserializeOptional fn) 1 := by
  unfold deserializeOptional
  simp only [dec_bind_eq, dec_pure_eq]
  have : (1 : Nat) + 0 = 1 := by norm_num
  rw [← this]
  refine consumes_bind (consumes_readLE 1) (fun flag => ?_)
  by_cases h0 : (flag == 0) = true
  · rw [if_pos h0]; exact consumes_pure _
  · rw [if_neg h0]
    exact consumes_mono (consumes_bind h (fun a => consumes_pure _))
      (by omega)

theorem errs_optional {α : Type} {fn : Dec α} (h : ErrsIn fn UorC) :
    ErrsIn (deserializeOptional fn) UorC := by
  unfold deserializeOptional
  simp only [dec_bind_eq, dec_pure_eq]
  refine errs_bind (errs_readLE 1) (fun flag => ?_)
  by_cases h0 : (flag == 0) = true
  · rw [if_pos h0]; exact errs_pure _ _
  · rw [if_neg h0]
    exact errs_bind h (fun a => errs_pure _ _)

theorem consumes_credentialInfo :
    Consumes deserializeCIS4CredentialInfo 45 := by
  unfold deserializeCIS4CredentialInfo deserializeEd25519PublicKey
    deserializeDate
  simp only [dec_bind_eq, dec_pure_eq]
  have : (32 : Nat) + (1 + (8 + (1 + (3 + 0)))) = 45 := by norm_num
  rw [← this]
  refine consumes_bind (consumes_readBytes 32) (fun key => ?_)
  refine consumes_bind (consumes_readLE 1) (fun rb => ?_)
  refine consumes_bind consumes_readI64LE (fun vf => ?_)
  refine consumes_bind (consumes_optional
    (consumes_mono consumes_readI64LE (by omega))) (fun vu => ?_)
  refine consumes_bind consumes_metadataUrl (fun mu => ?_)
  exact consumes_pure _

theorem errs_credentialInfo : ErrsIn deserializeCIS4CredentialInfo UorC := by
  unfold deserializeCIS4CredentialInfo deserializeEd25519PublicKey
    deserializeDate
  simp only [dec_bind_eq, dec_pure_eq]
  refine errs_bind (errs_readBytes 32) (fun key => ?_)
  refine errs_bind (errs_readLE 1) (fun rb => ?_)
  refine errs_bind errs_readI64LE (fun vf => ?_)
  refine errs_bind (errs_optional errs_readI64LE) (fun vu => ?_)
  refine errs_bind errs_metadataUrl (fun mu => ?_)
  exact errs_pure _ _

theorem consumes_credentialEntryDec : Consumes credentialEntryDec 56 := by
  unfold credentialEntryDec
  simp only [dec_bind_eq, dec_pure_eq]
  have : (45 : Nat) + (3 + (8 + 0)) = 56 := by norm_num
  rw [← this]
  refine consumes_bind consumes_credentialInfo (fun ci => ?_)
  refine consumes_bind consumes_metadataUrl (fun sr => ?_)
  refine consumes_bind consumes_readI64LE (fun nonce => ?_)
  exact consumes_pure _

theorem errs_credentialEntryDec : ErrsIn credentialEntryDec UorC := by
  unfold credentialEntryDec
  simp only [dec_bind_eq, dec_pure_eq]
  refine errs_bind errs_credentialInfo (fun ci => ?_)
  refine errs_bind errs_metadataUrl (fun sr => ?_)
  refine errs_bind errs_readI64LE (fun nonce => ?_)
  exact errs_pure _ _

/-- A buffer shorter than the 56-byte minimum width of a credential entry
never decodes successfully; the failure is an `UnderflowError` unless an
invalid checksum flag byte is hit first. -/
theorem credentialEntry_short_fails (b : List Nat) (h : b.length < 56) :
    deserializeCIS4CredentialEntry b = .error .underflow ∨
      deserializeCIS4CredentialEntry b = .error .invalidChecksumByte := by
  unfold deserializeCIS4CredentialEntry
  cases hb : credentialEntryDec b with
  | ok vr =>
    obtain ⟨v, r⟩ := vr
    have := consumes_credentialEntryDec b v r hb
    omega
  | error e =>
    rcases errs_credentialEntryDec b e hb with he | he
    · left; rw [he]
    · right; rw [he]

/-! ## Transaction round-trip facts -/
theorem readBE_decodes {w v : Nat} (h : v < 256 ^ w) :
    DecodesTo (readBE w) (encodeBE w v) v := by
  unfold readBE
  simp only [dec_bind_eq, dec_pure_eq]
  have hv : decodeBE (encodeBE w v) = v := by
    unfold decodeBE encodeBE
    rw [List.reverse_reverse, decodeLE_encodeLE, Nat.mod_eq_of_lt h]
  have h2 : DecodesTo (decPure (decodeBE (encodeBE w v))) [] v := by
    rw [hv]; exact decodesTo_pure v
  have hb := decodesTo_bind (f := fun bs => decPure (decodeBE bs))
    (readBytes_decodes (length_encodeBE w v)) h2
  exact decodesTo_congr hb (by simp)

theorem readN_decodes {α : Type} {p : Dec α} {enc : α → List Nat} :
    ∀ (l : List α), (∀ a ∈ l, DecodesTo p (enc a) a) →
      DecodesTo (readN p l.length) ((l.map enc).flatten) l := by
  intro l
  induction l with
  | nil => intro _; exact decodesTo_pure []
  | cons a rest ih =>
    intro h
    show DecodesTo (readN p (rest.length + 1)) _ _
    unfold readN
    simp only [dec_bind_eq, dec_pure_eq]
    refine decodesTo_congr (a := enc a ++ ((rest.map enc).flatten ++ []))
      ?_ (by simp)
    refine decodesTo_bind (h a (List.mem_cons_self a rest)) ?_
    refine decodesTo_bind (ih (fun x hx => h x (List.mem_cons_of_mem a hx)))
      ?_
    exact decodesTo_pure _

theorem keySig_decodes {kv : Nat × List Nat} (h : wfKeySig kv = true) :
    DecodesTo deserializeKeySig (serializeKeySig kv) kv := by
  obtain ⟨idx, sig⟩ := kv
  simp only [wfKeySig, Bool.and_eq_true, decide_eq_true_eq] at h
  obtain ⟨⟨hidx, hlen⟩, hwf⟩ := h
  unfold deserializeKeySig serializeKeySig
  simp only [dec_bind_eq, dec_pure_eq]
  refine decodesTo_congr (a := encodeLE 1 idx ++
    (encodeBE 2 sig.length ++ (sig ++ []))) ?_ (by simp)
  refine decodesTo_bind (readLE_decodes (by simpa using hidx)) ?_
  refine decodesTo_bind (readBE_decodes (by simpa using hlen)) ?_
  refine decodesTo_bind (readBytes_decodes rfl) ?_
  exact decodesTo_pure _

theorem mapInsert_append {α : Type} {m : List (Nat × α)} {k : Nat} {v : α}
    (h : ∀ p ∈ m, p.1 < k) : mapInsert k v m = m ++ [(k, v)] := by
  induction m with
  | nil => rfl
  | cons p rest ih =>
    obtain ⟨k2, v2⟩ := p
    have hk2 : k2 < k := h (k2, v2) (List.mem_cons_self _ _)
    unfold mapInsert
    rw [if_neg (by omega), if_neg (by omega)]
    rw [ih (fun q hq => h q (List.mem_cons_of_mem _ hq))]
    rfl

theorem foldl_mapInsert {α : Type} :
    ∀ (l acc : List (Nat × α)),
      (∀ p ∈ acc, ∀ q ∈ l, p.1 < q.1) →
      strictAsc (l.map Prod.fst) = true →
      l.foldl (fun m kv => mapInsert kv.1 kv.2 m) acc = acc ++ l := by
  intro l
  induction l with
  | nil => intro acc _ _; simp
  | cons kv rest ih =>
    intro acc hacc hasc
    obtain ⟨k, v⟩ := kv
    simp only [List.map_cons, strictAsc, Bool.and_eq_true, List.all_eq_true,
      decide_eq_true_eq] at hasc
    obtain ⟨hk, hrest⟩ := hasc
    simp only [List.foldl_cons]
    rw [mapInsert_append (fun p hp => hacc p hp (k, v)
      (List.mem_cons_self _ _))]
    rw [ih (acc ++ [(k, v)]) ?_ hrest]
    · simp
    · intro p hp q hq
      rcases List.mem_append.mp hp with hp1 | hp2
      · exact hacc p hp1 q (List.mem_cons_of_mem _ hq)
      · obtain rfl : p = (k, v) := List.mem_singleton.mp hp2
        have := hk q.1 (List.mem_map_of_mem Prod.fst hq)
        exact this

theorem foldl_mapInsert_nil {α : Type} (l : List (Nat × α))
    (h : strictAsc (l.map Prod.fst) = true) :
    l.foldl (fun m kv => mapInsert kv.1 kv.2 m) [] = l := by
  have := foldl_mapInsert l [] (by intro p hp; cases hp) h
  simpa using this

theorem credSignatures_decodes {c : Nat × CredentialSignature}
    (h : wfCredSignatures c = true) :
    DecodesTo deserializeCredSignatures (serializeCredSignatures c) c := by
  obtain ⟨idx, entries⟩ := c
  simp only [wfCredSignatures, Bool.and_eq_true, decide_eq_true_eq] at h
  obtain ⟨⟨⟨hidx, hcnt⟩, hall⟩, hasc⟩ := h
  rw [List.all_eq_true] at hall
  unfold deserializeCredSignatures serializeCredSignatures
  simp only [dec_bind_eq, dec_pure_eq]
  refine decodesTo_congr (a := encodeLE 1 idx ++
    (encodeLE 1 entries.length ++ ((entries.map serializeKeySig).flatten
      ++ []))) ?_ (by simp)
  refine decodesTo_bind (readLE_decodes (by simpa using hidx)) ?_
  refine decodesTo_bind (readLE_decodes (by simpa using hcnt)) ?_
  refine decodesTo_bind (readN_decodes entries
    (fun kv hkv => keySig_decodes (hall kv hkv))) ?_
  rw [foldl_mapInsert_nil entries hasc]
  exact decodesTo_pure _

theorem signature_decodes {sigs : AccountTransactionSignature}
    (h : wfSignature sigs = true) :
    DecodesTo deserializeAccountTransactionSignature
      (serializeAccountTransactionSignature sigs) sigs := by
  simp only [wfSignature, Bool.and_eq_true, decide_eq_true_eq] at h
  obtain ⟨⟨hcnt, hall⟩, hasc⟩ := h
  rw [List.all_eq_true] at hall
  unfold deserializeAccountTransactionSignature
    serializeAccountTransactionSignature
  simp only [dec_bind_eq, dec_pure_eq]
  refine decodesTo_congr (a := encodeLE 1 sigs.length ++
    ((sigs.map serializeCredSignatures).flatten ++ [])) ?_ (by simp)
  refine decodesTo_bind (readLE_decodes (by simpa using hcnt)) ?_
  refine decodesTo_bind (readN_decodes sigs
    (fun c hc => credSignatures_decodes (hall c hc))) ?_
  rw [foldl_mapInsert_nil sigs hasc]
  exact decodesTo_pure _

theorem header_decodes {h : AccountTransactionHeader}
    (hwf : wfHeader h = true) :
    DecodesTo deserializeTransactionHeader
      (serializeTransactionHeader h) h := by
  obtain ⟨sender, nonce, energy, expiry⟩ := h
  simp only [wfHeader, Bool.and_eq_true, decide_eq_true_eq] at hwf
  obtain ⟨⟨⟨⟨hsend, hsw⟩, hn⟩, he⟩, hx⟩ := hwf
  have h64 : (2 : Nat) ^ 64 = 256 ^ 8 := by norm_num
  unfold deserializeTransactionHeader serializeTransactionHeader
  simp only [dec_bind_eq, dec_pure_eq]
  refine decodesTo_congr (a := sender ++ (encodeBE 8 nonce ++
    (encodeBE 8 energy ++ (encodeBE 8 expiry ++ [])))) ?_ (by simp)
  refine decodesTo_bind (readBytes_decodes hsend) ?_
  refine decodesTo_bind (readBE_decodes (by omega)) ?_
  refine decodesTo_bind (readBE_decodes (by omega)) ?_
  refine decodesTo_bind (readBE_decodes (by omega)) ?_
  exact decodesTo_pure _

theorem payload_decodes {p : AccountTransactionPayload}
    (hwf : wfPayload p = true) :
    DecodesTo (decBind (readLE 1) deserializeAccountTransactionPayload)
      (serializeAccountTransactionPayload p) p := by
  have h64 : (2 : Nat) ^ 64 = 256 ^ 8 := by norm_num
  have h16 : (2 : Nat) ^ 16 = 256 ^ 2 := by norm_num
  cases p with
  | transfer toAddress amount =>
    simp only [wfPayload, Bool.and_eq_true, decide_eq_true_eq] at hwf
    obtain ⟨⟨ht, htw⟩, ha⟩ := hwf
    unfold serializeAccountTransactionPayload
    refine decodesTo_congr (a := [transferTag] ++ (toAddress ++
      (encodeBE 8 amount ++ []))) ?_ (by simp [transferTag])
    refine decodesTo_bind (v := transferTag)
      (decodesTo_congr (readLE_decodes (by norm_num [transferTag]))
        (by decide)) ?_
    unfold deserializeAccountTransactionPayload
    rw [if_pos rfl]
    simp only [dec_bind_eq, dec_pure_eq]
    refine decodesTo_bind (readBytes_decodes ht) ?_
    refine decodesTo_bind (readBE_decodes (by omega)) ?_
    exact decodesTo_pure _
  | transferWithMemo toAddress memo amount =>
    simp only [wfPayload, Bool.and_eq_true, decide_eq_true_eq] at hwf
    obtain ⟨⟨⟨⟨ht, htw⟩, hm⟩, hmw⟩, ha⟩ := hwf
    unfold serializeAccountTransactionPayload
    refine decodesTo_congr (a := [transferWithMemoTag] ++ (toAddress ++
      (encodeBE 2 memo.length ++ (memo ++ (encodeBE 8 amount ++ []))))) ?_
      (by simp [transferWithMemoTag])
    refine decodesTo_bind (v := transferWithMemoTag)
      (decodesTo_congr (readLE_decodes (by norm_num [transferWithMemoTag]))
        (by decide)) ?_
    unfold deserializeAccountTransactionPayload
    rw [if_neg (by norm_num [transferWithMemoTag, transferTag]), if_pos rfl]
    simp only [dec_bind_eq, dec_pure_eq]
    refine decodesTo_bind (readBytes_decodes ht) ?_
    refine decodesTo_bind (readBE_decodes (by omega)) ?_
    refine decodesTo_bind (readBytes_decodes rfl) ?_
    refine decodesTo_bind (readBE_decodes (by omega)) ?_
    exact decodesTo_pure _
  | registerData data =>
    simp only [wfPayload, Bool.and_eq_true, decide_eq_true_eq] at hwf
    obtain ⟨hd, hdw⟩ := hwf
    unfold serializeAccountTransactionPayload
    refine decodesTo_congr (a := [registerDataTag] ++
      (encodeBE 2 data.length ++ (data ++ []))) ?_
      (by simp [registerDataTag])
    refine decodesTo_bind (v := registerDataTag)
      (decodesTo_congr (readLE_decodes (by norm_num [registerDataTag]))
        (by decide)) ?_
    unfold deserializeAccountTransactionPayload
    rw [if_neg (by norm_num [registerDataTag, transferTag]),
      if_neg (by norm_num [registerDataTag, transferWithMemoTag]),
      if_pos rfl]
    simp only [dec_bind_eq, dec_pure_eq]
    refine decodesTo_bind (readBE_decodes (by omega)) ?_
    refine decodesTo_bind (readBytes_decodes rfl) ?_
    exact decodesTo_pure _

theorem decBind_assoc {α β γ : Type} (p : Dec α) (f : α → Dec β)
    (g : β → Dec γ) :
    decBind p (fun a => decBind (f a) g) = decBind (decBind p f) g := by
  funext b
  unfold decBind
  cases p b with
  | error e => rfl
  | ok ar => obtain ⟨a, r⟩ := ar; rfl

theorem decBind_err_left {α β : Type} {p : Dec α} {f : α → Dec β}
    {b : List Nat} {e : DErr} (h : p b = .error e) :
    decBind p f b = .error e := by
  unfold decBind
  rw [h]

theorem decodesTo_bind_err {α β : Type} {p : Dec α} {f : α → Dec β}
    {e1 : List Nat} {v : α} {r : List Nat} {e : DErr}
    (h1 : DecodesTo p e1 v) (h2 : f v r = .error e) :
    decBind p f (e1 ++ r) = .error e := by
  unfold decBind
  rw [h1 r]
  exact h2

theorem transactionDec_decodes {t : AccountTransaction}
    {sigs : AccountTransactionSignature} (hh : wfHeader t.header = true)
    (hp : wfPayload t.payload = true) (hs : wfSignature sigs = true) :
    DecodesTo transactionDec
      (serializeAccountTransactionForSubmission t sigs) (t, sigs) := by
  obtain ⟨header, payload⟩ := t
  unfold transactionDec serializeAccountTransactionForSubmission
  simp only [dec_bind_eq, dec_pure_eq]
  refine decodesTo_congr (a := [0] ++
    (serializeAccountTransactionSignature sigs ++
      (serializeTransactionHeader header ++
        serializeAccountTransactionPayload payload))) ?_ (by simp)
  refine decodesTo_bind (v := 0)
    (decodesTo_congr (readLE_decodes (by norm_num)) (by decide)) ?_
  show DecodesTo (decBind deserializeAccountTransactionSignature _) _ _
  refine decodesTo_bind (signature_decodes hs) ?_
  refine decodesTo_bind (header_decodes hh) ?_
  rw [decBind_assoc]
  refine decodesTo_congr (decodesTo_bind (payload_decodes hp)
    (decodesTo_pure _)) (by simp)

/-- Deserializing a serializer-produced submission blob reconstructs the
transaction and the signature map. -/
theorem deserialize_serialize_transaction {t : AccountTransaction}
    {sigs : AccountTransactionSignature} (hh : wfHeader t.header = true)
    (hp : wfPayload t.payload = true) (hs : wfSignature sigs = true) :
    deserializeTransaction
      (serializeAccountTransactionForSubmission t sigs) = .ok (t, sigs) := by
  have hd := transactionDec_decodes hh hp hs []
  rw [List.append_nil] at hd
  unfold deserializeTransaction
  rw [hd]
  rfl

theorem payload_unsupported {tag : Nat}
    (h : tag ∉ supportedTransactionKinds) (b : List Nat) :
    deserializeAccountTransactionPayload tag b =
      .error .unsupportedTransactionKind := by
  simp only [supportedTransactionKinds, List.mem_cons,
    List.not_mem_nil, or_false, not_or] at h
  obtain ⟨h3, h21, h22⟩ := h
  unfold deserializeAccountTransactionPayload
  rw [if_neg (by simpa [transferTag] using h3),
    if_neg (by simpa [transferWithMemoTag] using h22),
    if_neg (by simpa [registerDataTag] using h21)]
  rfl

/-- A blob whose payload kind tag is outside the allow-list fails whole
with `UnsupportedTransactionKindError`, whatever follows the tag. -/
theorem deserializeTransaction_unsupported {tag : Nat}
    {sigs : AccountTransactionSignature} {header : AccountTransactionHeader}
    (hh : wfHeader header = true) (hs : wfSignature sigs = true)
    (htag : tag ∉ supportedTransactionKinds) (htb : tag < 256)
    (rest : List Nat) :
    deserializeTransaction (0 ::
      (serializeAccountTransactionSignature sigs ++
        (serializeTransactionHeader header ++ (tag :: rest)))) =
      .error .unsupportedTransactionKind := by
  have hstep : transactionDec (0 ::
      (serializeAccountTransactionSignature sigs ++
        (serializeTransactionHeader header ++ (tag :: rest)))) =
      .error .unsupportedTransactionKind := by
    unfold transactionDec
    simp only [dec_bind_eq, dec_pure_eq]
    have hshape : (0 :: (serializeAccountTransactionSignature sigs ++
        (serializeTransactionHeader header ++ (tag :: rest)))) =
        [0] ++ ((serializeAccountTransactionSignature sigs ++
          (serializeTransactionHeader header ++ ([tag] ++ rest)))) := by
      simp
    rw [hshape]
    refine decodesTo_bind_err (v := 0)
      (decodesTo_congr (readLE_decodes (by norm_num)) (by decide)) ?_
    show decBind deserializeAccountTransactionSignature _ _ = _
    refine decodesTo_bind_err (signature_decodes hs) ?_
    refine decodesTo_bind_err (header_decodes hh) ?_
    rw [decBind_assoc]
    refine decBind_err_left ?_
    refine decodesTo_bind_err (v := tag)
      (decodesTo_congr (readLE_decodes (by simpa using htb))
        (by simp [encodeLE, Nat.mod_eq_of_lt htb])) ?_
    exact payload_unsupported htag rest
  unfold deserializeTransaction
  rw [hstep]

/-! ## cis0Supports facts -/
theorem cis0Supports_no_method (info : InstanceInfo)
    (invoke : List Nat → Option InvokeResult)
    (ids : List Nat ⊕ List (List Nat))
    (h : info.methods.contains (getContractName info ++ ".supports")
      = false) :
    cis0Supports (some info) invoke ids = (false, .ok none) := by
  simp only [cis0Supports]
  rw [if_neg (by rw [h]; intro hc; cases hc)]

theorem cis0Supports_none_iff (ii : Option InstanceInfo)
    (invoke : List Nat → Option InvokeResult)
    (ids : List Nat ⊕ List (List Nat)) :
    (cis0Supports ii invoke ids).2 = .ok none ↔
      ∃ info, ii = some info ∧
        info.methods.contains (getContractName info ++ ".supports")
          = false := by
  cases ii with
  | none =>
    constructor
    · intro h; cases h
    · rintro ⟨info, hinfo, _⟩; cases hinfo
  | some info =>
    constructor
    · intro h
      refine ⟨info, rfl, ?_⟩
      by_contra hc
      have hc2 : info.methods.contains (getContractName info ++ ".supports")
          = true := by
        cases hcc : info.methods.contains (getContractName info ++
          ".supports") with
        | false => exact absurd hcc hc
        | true => rfl
      simp only [cis0Supports] at h
      rw [if_pos hc2] at h
      rcases hinv : invoke (serializeSupportIdentifiers (idsListOf ids)) with
        _ | response
      · rw [hinv] at h; cases h
      · rw [hinv] at h
        obtain ⟨tag, rv⟩ := response
        simp only [] at h
        cases tag with
        | failure => simp only [] at h; cases h
        | success =>
          cases rv with
          | none => simp only [] at h; cases h
          | some bytes =>
            simp only [] at h
            rcases hdec : deserializeSupportResult bytes with e | results
            · rw [hdec] at h; simp only [] at h; cases h
            · rw [hdec] at h; simp only [] at h
              by_cases hlen : results.length ≠ expectedOf ids
              · rw [if_pos hlen] at h; cases h
              · rw [if_neg hlen] at h
                cases ids with
                | inl x => simp only [] at h; cases h
                | inr xs => simp only [] at h; cases h
    · rintro ⟨info2, hinfo, hmeth⟩
      injection hinfo with hinfo2
      subst hinfo2
      rw [cis0Supports_no_method _ invoke ids hmeth]

theorem cis0Supports_arity (ii : Option InstanceInfo)
    (invoke : List Nat → Option InvokeResult)
    (ids : List Nat ⊕ List (List Nat))
    (out : SupportResult ⊕ List SupportResult)
    (h : (cis0Supports ii invoke ids).2 = .ok (some out)) :
    (∃ x r, ids = .inl x ∧ out = .inl r) ∨
      (∃ xs rs, ids = .inr xs ∧ out = .inr rs ∧ rs.length = xs.length) := by
  cases ii with
  | none => cases h
  | some info =>
    simp only [cis0Supports] at h
    by_cases hc : info.methods.contains (getContractName info ++ ".supports")
        = true
    · rw [if_pos hc] at h
      rcases hinv : invoke (serializeSupportIdentifiers (idsListOf ids)) with
        _ | response
      · rw [hinv] at h; cases h
      · rw [hinv] at h
        obtain ⟨tag, rv⟩ := response
        simp only [] at h
        cases tag with
        | failure => simp only [] at h; cases h
        | success =>
          cases rv with
          | none => simp only [] at h; cases h
          | some bytes =>
            simp only [] at h
            rcases hdec : deserializeSupportResult bytes with e | results
            · rw [hdec] at h; simp only [] at h; cases h
            · rw [hdec] at h; simp only [] at h
              by_cases hlen : results.length ≠ expectedOf ids
              · rw [if_pos hlen] at h; cases h
              · rw [if_neg hlen] at h
                push_neg at hlen
                cases ids with
                | inl x =>
                  left
                  simp only [] at h
                  refine ⟨x, results.headI, rfl, ?_⟩
                  injection h with h
                  injection h with h
                  rw [← h]
                | inr xs =>
                  right
                  simp only [] at h
                  refine ⟨xs, results, rfl, ?_, ?_⟩
                  · injection h with h
                    injection h with h
                    rw [← h]
                  · exact hlen
    · rw [if_neg hc] at h; cases h

theorem cis0Supports_mismatch (info : InstanceInfo)
    (invoke : List Nat → Option InvokeResult)
    (ids : List Nat ⊕ List (List Nat)) (bytes : List Nat)
    (results : List SupportResult)
    (hc : info.methods.contains (getContractName info ++ ".supports") = true)
    (hinv : invoke (serializeSupportIdentifiers (idsListOf ids)) =
      some (InvokeResult.mk .success (some bytes)))
    (hdec : deserializeSupportResult bytes = .ok results)
    (hlen : results.length ≠ expectedOf ids) :
    (cis0Supports (some info) invoke ids).2 = .error .lengthMismatch := by
  simp only [cis0Supports]
  rw [if_pos hc, hinv]
  simp only []
  rw [hdec]
  simp only []
  rw [if_pos hlen]

/-! ## Message-signing separation facts -/
theorem decodeLE_replicate_zero (n : Nat) :
    decodeLE (List.replicate n 0) = 0 := by
  induction n with
  | zero => rfl
  | succ n ih =>
    simp only [List.replicate_succ, decodeLE, List.foldr_cons] at ih ⊢
    omega

theorem take_len_append {α : Type} {l1 l2 : List α} {n : Nat}
    (h : l1.length = n) : (l1 ++ l2).take n = l1 := by
  subst h; exact List.take_left l1 l2

theorem drop_len_append {α : Type} {l1 l2 : List α} {n : Nat}
    (h : l1.length = n) : (l1 ++ l2).drop n = l2 := by
  subst h; exact List.drop_left l1 l2

/-- The message-signing preimage can never equal a transaction-signing
preimage for a transaction with a positive (valid) nonce: bytes 32..39 of
the former are the zero padding, of the latter the nonzero nonce. -/
theorem messagePreimage_ne_transactionPreimage (addr msg : List Nat)
    (h : AccountTransactionHeader) (p : AccountTransactionPayload)
    (ha : addr.length = 32) (hs : h.sender.length = 32)
    (h1 : 1 ≤ h.nonce) (h2 : h.nonce < 2 ^ 64) :
    messageSigningPreimage addr msg ≠ transactionSignPreimage h p := by
  intro heq
  unfold messageSigningPreimage transactionSignPreimage
    serializeTransactionHeader at heq
  simp only [List.append_assoc] at heq
  have hdrop := congrArg (List.drop 32) heq
  rw [drop_len_append ha, drop_len_append hs] at hdrop
  have htake := congrArg (List.take 8) hdrop
  rw [take_len_append (by simp),
    take_len_append (length_encodeBE 8 h.nonce)] at htake
  have hval := congrArg decodeBE htake
  have hv2 : decodeBE (encodeBE 8 h.nonce) = h.nonce := by
    unfold decodeBE encodeBE
    rw [List.reverse_reverse, decodeLE_encodeLE]
    have he : (256 : Nat) ^ 8 = 2 ^ 64 := by norm_num
    rw [he]
    exact Nat.mod_eq_of_lt h2
  have hz : decodeBE (List.replicate 8 0) = 0 := by
    unfold decodeBE
    rw [show (List.replicate 8 (0 : Nat)).reverse = List.replicate 8 0
      from by simp]
    exact decodeLE_replicate_zero 8
  rw [hv2, hz] at hval
  omega

/-! ## Schema codec round-trip -/
theorem pow256_eq (w : Nat) : (256 : Nat) ^ w = 2 ^ (8 * w) := by
  rw [show (256 : Nat) = 2 ^ 8 from rfl, ← pow_mul]

theorem variantIdx_lt {name : String} {v : SchemaValue} :
    ∀ vs : List (String × SchemaType), conformsVariant name v vs = true →
      variantIdx name vs < vs.length := by
  intro vs
  induction vs with
  | nil => intro h; simp [conformsVariant] at h
  | cons p rest ih =>
    obtain ⟨nm, t⟩ := p
    intro h
    simp only [conformsVariant] at h
    simp only [variantIdx]
    by_cases hm : (nm == name) = true
    · rw [if_pos hm]; simp
    · rw [if_neg hm]
      rw [if_neg hm] at h
      have := ih h
      simp only [List.length_cons]
      omega

theorem decodeCount_hom {t : SchemaType}
    (H : ∀ v, conformsVal t v = true →
      DecodesTo (decodeValue t) (encodeValue t v) v) :
    ∀ vs : List SchemaValue, conformsHom t vs = true →
      DecodesTo (decodeCount t vs.length) (encodeHom t vs) vs := by
  intro vs
  induction vs with
  | nil =>
    intro _ r
    simp [decodeCount, encodeHom]
  | cons v rest ih =>
    intro hc r
    simp only [conformsHom, Bool.and_eq_true] at hc
    obtain ⟨hv, hrest⟩ := hc
    rw [show encodeHom t (v :: rest) = encodeValue t v ++ encodeHom t rest
      from by simp [encodeHom]]
    rw [List.append_assoc]
    simp only [List.length_cons, decodeCount]
    rw [H v hv (encodeHom t rest ++ r)]
    simp only []
    rw [ih hrest r]

theorem decodeHet_het :
    ∀ (ts : List SchemaType) (vs : List SchemaValue),
      (∀ t2 ∈ ts, ∀ v, conformsVal t2 v = true →
        DecodesTo (decodeValue t2) (encodeValue t2 v) v) →
      conformsHet ts vs = true →
      DecodesTo (decodeHet ts) (encodeHet ts vs) vs := by
  intro ts
  induction ts with
  | nil =>
    intro vs _ hc r
    cases vs with
    | nil => simp [decodeHet, encodeHet]
    | cons v rest => simp [conformsHet] at hc
  | cons t ts2 ih =>
    intro vs H hc r
    cases vs with
    | nil => simp [conformsHet] at hc
    | cons v rest =>
      simp only [conformsHet, Bool.and_eq_true] at hc
      obtain ⟨hv, hrest⟩ := hc
      rw [show encodeHet (t :: ts2) (v :: rest) =
        encodeValue t v ++ encodeHet ts2 rest from by simp [encodeHet]]
      rw [List.append_assoc]
      simp only [decodeHet]
      rw [H t (List.mem_cons_self t ts2) v hv (encodeHet ts2 rest ++ r)]
      simp only []
      rw [ih rest (fun t2 ht2 => H t2 (List.mem_cons_of_mem t ht2)) hrest r]

theorem decodeFields_fields :
    ∀ (fs : List (String × SchemaType)) (gs : List (String × SchemaValue)),
      (∀ p ∈ fs, ∀ v, conformsVal p.2 v = true →
        DecodesTo (decodeValue p.2) (encodeValue p.2 v) v) →
      conformsFields fs gs = true →
      DecodesTo (decodeFields fs) (encodeFields fs gs) gs := by
  intro fs
  induction fs with
  | nil =>
    intro gs _ hc r
    cases gs with
    | nil => simp [decodeFields, encodeFields]
    | cons g rest => simp [conformsFields] at hc
  | cons p fs2 ih =>
    obtain ⟨nm, t⟩ := p
    intro gs H hc r
    cases gs with
    | nil => simp [conformsFields] at hc
    | cons g rest =>
      obtain ⟨gm, v⟩ := g
      simp only [conformsFields, Bool.and_eq_true] at hc
      obtain ⟨⟨hname, hv⟩, hrest⟩ := hc
      rw [show encodeFields ((nm, t) :: fs2) ((gm, v) :: rest) =
        encodeValue t v ++ encodeFields fs2 rest from by simp [encodeFields]]
      rw [List.append_assoc]
      simp only [decodeFields]
      rw [H (nm, t) (List.mem_cons_self _ _) v hv
        (encodeFields fs2 rest ++ r)]
      simp only []
      rw [ih rest (fun q hq => H q (List.mem_cons_of_mem _ hq)) hrest r]
      simp only []
      have : nm = gm := eq_of_beq hname
      rw [this]

theorem decodePairsN_pairs {k v : SchemaType}
    (Hk : ∀ w, conformsVal k w = true →
      DecodesTo (decodeValue k) (encodeValue k w) w)
    (Hv : ∀ w, conformsVal v w = true →
      DecodesTo (decodeValue v) (encodeValue v w) w) :
    ∀ ps : List (SchemaValue × SchemaValue), conformsPairs k v ps = true →
      DecodesTo (decodePairsN k v ps.length) (encodePairs k v ps) ps := by
  intro ps
  induction ps with
  | nil =>
    intro _ r
    simp [decodePairsN, encodePairs]
  | cons p rest ih =>
    obtain ⟨a, b⟩ := p
    intro hc r
    simp only [conformsPairs, Bool.and_eq_true] at hc
    obtain ⟨⟨ha, hb⟩, hrest⟩ := hc
    rw [show encodePairs k v ((a, b) :: rest) =
      encodeValue k a ++ (encodeValue v b ++ encodePairs k v rest)
      from by simp [encodePairs]]
    rw [List.append_assoc, List.append_assoc]
    simp only [List.length_cons, decodePairsN]
    rw [Hk a ha (encodeValue v b ++ (encodePairs k v rest ++ r))]
    simp only []
    rw [Hv b hb (encodePairs k v rest ++ r)]
    simp only []
    rw [ih hrest r]

theorem decodeVariantAt_variant {name : String} {v : SchemaValue} :
    ∀ vs : List (String × SchemaType),
      (∀ p ∈ vs, ∀ w, conformsVal p.2 w = true →
        DecodesTo (decodeValue p.2) (encodeValue p.2 w) w) →
      conformsVariant name v vs = true →
      DecodesTo (decodeVariantAt (variantIdx name vs) vs)
        (encodeVariantPayload name v vs) (.variant name v) := by
  intro vs
  induction vs with
  | nil => intro _ hc; simp [conformsVariant] at hc
  | cons p rest ih =>
    obtain ⟨nm, t⟩ := p
    intro H hc r
    simp only [conformsVariant] at hc
    by_cases hm : (nm == name) = true
    · rw [if_pos hm] at hc
      simp only [variantIdx, if_pos hm]
      rw [show encodeVariantPayload name v ((nm, t) :: rest) =
        encodeValue t v from by simp [encodeVariantPayload, hm]]
      simp only [decodeVariantAt, if_pos rfl]
      rw [H (nm, t) (List.mem_cons_self _ _) v hc r]
      simp only []
      have : nm = name := eq_of_beq hm
      rw [this]
      simp
    · rw [if_neg hm] at hc
      simp only [variantIdx, if_neg hm]
      rw [show encodeVariantPayload name v ((nm, t) :: rest) =
        encodeVariantPayload name v rest from by
          simp [encodeVariantPayload, hm]]
      simp only [decodeVariantAt, if_neg (by omega : ¬variantIdx name rest
        + 1 = 0)]
      have hstep : variantIdx name rest + 1 - 1 = variantIdx name rest := by
        omega
      rw [hstep]
      exact ih (fun q hq => H q (List.mem_cons_of_mem _ hq)) hc r

theorem cast_two_pow (w : Nat) :
    (((2 : Nat) ^ (8 * w) : Nat) : Int) = (2 : Int) ^ (8 * w) := by
  push_cast
  ring

theorem schemaRoundTripAux :
    ∀ (N : Nat) (t : SchemaType), sizeOf t ≤ N →
      ∀ v, conformsVal t v = true →
        DecodesTo (decodeValue t) (encodeValue t v) v := by
  intro N
  induction N with
  | zero =>
    intro t ht
    exact absurd ht (by cases t <;> simp <;> omega)
  | succ N ih =>
    intro t ht v hc
    cases t with
    | uint w =>
      cases v <;> simp only [conformsVal] at hc
      all_goals try exact absurd hc (by decide)
      case num n =>
        simp only [Bool.and_eq_true, decide_eq_true_eq] at hc
        obtain ⟨h0, h1⟩ := hc
        have hPN := cast_two_pow w
        have hlt : n.toNat < 256 ^ w := by
          rw [pow256_eq]
          omega
        intro r
        simp only [encodeValue, decodeValue]
        rw [readLE_decodes hlt r]
        simp only []
        rw [Int.toNat_of_nonneg h0]
    | int w =>
      cases v <;> simp only [conformsVal] at hc
      all_goals try exact absurd hc (by decide)
      case num n =>
        simp only [Bool.and_eq_true, decide_eq_true_eq] at hc
        obtain ⟨⟨hw, hlo⟩, hhi⟩ := hc
        have hPN := cast_two_pow w
        have hP : (0 : Int) < 2 ^ (8 * w) := by positivity
        have hmod0 : 0 ≤ n.emod ((2 : Int) ^ (8 * w)) :=
          Int.emod_nonneg n (ne_of_gt hP)
        have hmodlt : n.emod ((2 : Int) ^ (8 * w)) < (2 : Int) ^ (8 * w) :=
          Int.emod_lt_of_pos n hP
        have hlt : (n.emod ((2 : Int) ^ (8 * w))).toNat < 256 ^ w := by
          rw [pow256_eq]
          omega
        have hval : ∀ u : Nat, (u : Int) = n.emod ((2 : Int) ^ (8 * w)) →
            decodeSigned w u = n := by
          intro u hu
          unfold decodeSigned
          by_cases hn : 0 ≤ n
          · have hmeq : n.emod ((2 : Int) ^ (8 * w)) = n :=
              Int.emod_eq_of_lt hn (by omega)
            rw [hmeq] at hu
            rw [if_pos (by omega)]
            exact hu
          · push_neg at hn
            have h3 : (n + (2 : Int) ^ (8 * w) * 1).emod
                ((2 : Int) ^ (8 * w)) = n.emod ((2 : Int) ^ (8 * w)) :=
              Int.add_mul_emod_self_left n ((2 : Int) ^ (8 * w)) 1
            have h4 : n + (2 : Int) ^ (8 * w) * 1 =
                n + (2 : Int) ^ (8 * w) := by ring
            rw [h4] at h3
            have h5 : (n + (2 : Int) ^ (8 * w)).emod ((2 : Int) ^ (8 * w)) =
                n + (2 : Int) ^ (8 * w) :=
              Int.emod_eq_of_lt (by omega) (by omega)
            have hmeq : n.emod ((2 : Int) ^ (8 * w)) =
                n + (2 : Int) ^ (8 * w) := by
              rw [← h3]
              exact h5
            rw [hmeq] at hu
            rw [if_neg (by omega)]
            omega
        intro r
        simp only [encodeValue, decodeValue]
        rw [readLE_decodes hlt r]
        simp only []
        rw [hval (n.emod ((2 : Int) ^ (8 * w))).toNat
          (Int.toNat_of_nonneg hmod0)]
    | bool =>
      cases v <;> simp only [conformsVal] at hc
      all_goals try exact absurd hc (by decide)
      case bool b =>
        intro r
        cases b with
        | false =>
          have he : encodeValue .bool (.bool false) = encodeLE 1 0 := by
            simp [encodeValue, encodeBool, encodeLE]
          rw [he]
          simp only [decodeValue]
          rw [readLE_decodes (show (0 : Nat) < 256 ^ 1 by norm_num) r]
          simp
        | true =>
          have he : encodeValue .bool (.bool true) = encodeLE 1 1 := by
            simp [encodeValue, encodeBool, encodeLE]
          rw [he]
          simp only [decodeValue]
          rw [readLE_decodes (show (1 : Nat) < 256 ^ 1 by norm_num) r]
          simp
    | unit =>
      cases v <;> simp only [conformsVal] at hc
      all_goals try exact absurd hc (by decide)
      case unit =>
        intro r
        simp [encodeValue, decodeValue]
    | array n t =>
      cases v <;> simp only [conformsVal] at hc
      all_goals try exact absurd hc (by decide)
      case seq vs =>
        simp only [Bool.and_eq_true, decide_eq_true_eq] at hc
        obtain ⟨hlen, hhom⟩ := hc
        have hel : ∀ w, conformsVal t w = true →
            DecodesTo (decodeValue t) (encodeValue t w) w := by
          intro w hw
          refine ih t ?_ w hw
          have hsz : sizeOf (SchemaType.array n t) =
              1 + sizeOf n + sizeOf t := by simp
          omega
        intro r
        simp only [encodeValue, decodeValue]
        rw [← hlen]
        rw [decodeCount_hom hel vs hhom r]
    | list p t =>
      cases v <;> simp only [conformsVal] at hc
      all_goals try exact absurd hc (by decide)
      case seq vs =>
        simp only [Bool.and_eq_true, decide_eq_true_eq] at hc
        obtain ⟨hlen, hhom⟩ := hc
        have hel : ∀ w, conformsVal t w = true →
            DecodesTo (decodeValue t) (encodeValue t w) w := by
          intro w hw
          refine ih t ?_ w hw
          have hsz : sizeOf (SchemaType.list p t) =
              1 + sizeOf p + sizeOf t := by simp
          omega
        have hcnt : vs.length < 256 ^ p.width := by
          rw [pow256_eq]
          exact hlen
        intro r
        simp only [encodeValue, decodeValue]
        rw [List.append_assoc]
        rw [readLE_decodes hcnt (encodeHom t vs ++ r)]
        simp only []
        rw [decodeCount_hom hel vs hhom r]
    | tuple ts =>
      cases v <;> simp only [conformsVal] at hc
      all_goals try exact absurd hc (by decide)
      case seq vs =>
        have hel : ∀ t2 ∈ ts, ∀ w, conformsVal t2 w = true →
            DecodesTo (decodeValue t2) (encodeValue t2 w) w := by
          intro t2 ht2 w hw
          refine ih t2 ?_ w hw
          have h1 := List.sizeOf_lt_of_mem ht2
          have h2 : sizeOf (SchemaType.tuple ts) = 1 + sizeOf ts := by simp
          omega
        intro r
        simp only [encodeValue, decodeValue]
        rw [decodeHet_het ts vs hel hc r]
    | struct fs =>
      cases v <;> simp only [conformsVal] at hc
      all_goals try exact absurd hc (by decide)
      case record gs =>
        have hel : ∀ q ∈ fs, ∀ w, conformsVal q.2 w = true →
            DecodesTo (decodeValue q.2) (encodeValue q.2 w) w := by
          intro q hq w hw
          obtain ⟨nm, t2⟩ := q
          refine ih t2 ?_ w hw
          have h1 := List.sizeOf_lt_of_mem hq
          have h2 : sizeOf ((nm, t2) : String × SchemaType) =
              1 + sizeOf nm + sizeOf t2 := by simp
          have h3 : sizeOf (SchemaType.struct fs) = 1 + sizeOf fs := by simp
          omega
        intro r
        simp only [encodeValue, decodeValue]
        rw [decodeFields_fields fs gs hel hc r]
    | enum vs =>
      cases v <;> simp only [conformsVal] at hc
      all_goals try exact absurd hc (by decide)
      case variant name w =>
        simp only [Bool.and_eq_true, decide_eq_true_eq] at hc
        obtain ⟨hcnt, hvar⟩ := hc
        have hel : ∀ q ∈ vs, ∀ u, conformsVal q.2 u = true →
            DecodesTo (decodeValue q.2) (encodeValue q.2 u) u := by
          intro q hq u hu
          obtain ⟨nm, t2⟩ := q
          refine ih t2 ?_ u hu
          have h1 := List.sizeOf_lt_of_mem hq
          have h2 : sizeOf ((nm, t2) : String × SchemaType) =
              1 + sizeOf nm + sizeOf t2 := by simp
          have h3 : sizeOf (SchemaType.enum vs) = 1 + sizeOf vs := by simp
          omega
        have hidx := variantIdx_lt vs hvar
        have hdiscr : variantIdx name vs < 256 ^ discWidth vs.length := by
          unfold discWidth
          by_cases hle : vs.length ≤ 256
          · rw [if_pos hle]
            have h1 : (256 : Nat) ^ 1 = 256 := by norm_num
            omega
          · rw [if_neg hle]
            have h1 : (256 : Nat) ^ 2 = 2 ^ 16 := by norm_num
            omega
        intro r
        simp only [encodeValue, decodeValue]
        rw [List.append_assoc]
        rw [readLE_decodes hdiscr (encodeVariantPayload name w vs ++ r)]
        simp only []
        rw [decodeVariantAt_variant vs hel hvar r]
    | str p =>
      cases v <;> simp only [conformsVal] at hc
      all_goals try exact absurd hc (by decide)
      case bytes bs =>
        simp only [Bool.and_eq_true, decide_eq_true_eq] at hc
        obtain ⟨hlen, hwf⟩ := hc
        have hcnt : bs.length < 256 ^ p.width := by
          rw [pow256_eq]
          exact hlen
        intro r
        simp only [encodeValue, decodeValue]
        rw [List.append_assoc]
        rw [readLE_decodes hcnt (bs ++ r)]
        simp only []
        rw [@readBytes_decodes bs bs.length rfl r]
    | optional t =>
      cases v
      case opt o =>
        cases o with
        | none =>
          intro r
          have he : encodeValue (.optional t) (.opt none) = encodeLE 1 0 := by
            simp [encodeValue, encodeLE]
          rw [he]
          simp only [decodeValue]
          rw [readLE_decodes (show (0 : Nat) < 256 ^ 1 by norm_num) r]
          simp
        | some w =>
          simp only [conformsVal] at hc
          have hel : DecodesTo (decodeValue t) (encodeValue t w) w := by
            refine ih t ?_ w hc
            have hsz : sizeOf (SchemaType.optional t) = 1 + sizeOf t := by
              simp
            omega
          intro r
          have he : encodeValue (.optional t) (.opt (some w)) =
              encodeLE 1 1 ++ encodeValue t w := by
            simp [encodeValue, encodeLE]
          rw [he, List.append_assoc]
          simp only [decodeValue]
          rw [readLE_decodes (show (1 : Nat) < 256 ^ 1 by norm_num)
            (encodeValue t w ++ r)]
          simp only []
          rw [hel r]
          simp
      all_goals simp only [conformsVal] at hc
      all_goals exact absurd hc (by decide)
    | map p k v2 =>
      cases v <;> simp only [conformsVal] at hc
      all_goals try exact absurd hc (by decide)
      case pairs ps =>
        simp only [Bool.and_eq_true, decide_eq_true_eq] at hc
        obtain ⟨hlen, hps⟩ := hc
        have hsz : sizeOf (SchemaType.map p k v2) =
            1 + sizeOf p + sizeOf k + sizeOf v2 := by simp
        have hk : ∀ w, conformsVal k w = true →
            DecodesTo (decodeValue k) (encodeValue k w) w := by
          intro w hw
          refine ih k ?_ w hw
          omega
        have hv : ∀ w, conformsVal v2 w = true →
            DecodesTo (decodeValue v2) (encodeValue v2 w) w := by
          intro w hw
          refine ih v2 ?_ w hw
          omega
        have hcnt : ps.length < 256 ^ p.width := by
          rw [pow256_eq]
          exact hlen
        intro r
        simp only [encodeValue, decodeValue]
        rw [List.append_assoc]
        rw [readLE_decodes hcnt (encodePairs k v2 ps ++ r)]
        simp only []
        rw [decodePairsN_pairs hk hv ps hps r]
    | accountAddress =>
      cases v <;> simp only [conformsVal] at hc
      all_goals try exact absurd hc (by decide)
      case bytes bs =>
        simp only [Bool.and_eq_true, decide_eq_true_eq] at hc
        intro r
        simp only [encodeValue, decodeValue]
        rw [@readBytes_decodes bs 32 hc.1 r]
    | contractAddress =>
      cases v <;> simp only [conformsVal] at hc
      all_goals try exact absurd hc (by decide)
      case contractAddr i s =>
        simp only [Bool.and_eq_true, decide_eq_true_eq] at hc
        obtain ⟨hi, hs⟩ := hc
        have h256 : (256 : Nat) ^ 8 = 2 ^ 64 := by norm_num
        intro r
        simp only [encodeValue, decodeValue]
        rw [List.append_assoc]
        rw [readLE_decodes (show i < 256 ^ 8 by omega)
          (encodeLE 8 s ++ r)]
        simp only []
        rw [readLE_decodes (show s < 256 ^ 8 by omega) r]
    | amount =>
      cases v <;> simp only [conformsVal] at hc
      all_goals try exact absurd hc (by decide)
      case num n =>
        simp only [Bool.and_eq_true, decide_eq_true_eq] at hc
        obtain ⟨h0, h1⟩ := hc
        have hlt : n.toNat < 256 ^ 8 := by
          have h64 : ((2 ^ 64 : Nat) : Int) = (2 : Int) ^ 64 := by norm_num
          have h256 : (256 : Nat) ^ 8 = 2 ^ 64 := by norm_num
          omega
        intro r
        simp only [encodeValue, decodeValue]
        rw [readLE_decodes hlt r]
        simp only []
        rw [Int.toNat_of_nonneg h0]
    | timestamp =>
      cases v <;> simp only [conformsVal] at hc
      all_goals try exact absurd hc (by decide)
      case num n =>
        simp only [Bool.and_eq_true, decide_eq_true_eq] at hc
        obtain ⟨h0, h1⟩ := hc
        have hlt : n.toNat < 256 ^ 8 := by
          have h64 : ((2 ^ 64 : Nat) : Int) = (2 : Int) ^ 64 := by norm_num
          have h256 : (256 : Nat) ^ 8 = 2 ^ 64 := by norm_num
          omega
        intro r
        simp only [encodeValue, decodeValue]
        rw [readLE_decodes hlt r]
        simp only []
        rw [Int.toNat_of_nonneg h0]
    | duration =>
      cases v <;> simp only [conformsVal] at hc
      all_goals try exact absurd hc (by decide)
      case num n =>
        simp only [Bool.and_eq_true, decide_eq_true_eq] at hc
        obtain ⟨h0, h1⟩ := hc
        have hlt : n.toNat < 256 ^ 8 := by
          have h64 : ((2 ^ 64 : Nat) : Int) = (2 : Int) ^ 64 := by norm_num
          have h256 : (256 : Nat) ^ 8 = 2 ^ 64 := by norm_num
          omega
        intro r
        simp only [encodeValue, decodeValue]
        rw [readLE_decodes hlt r]
        simp only []
        rw [Int.toNat_of_nonneg h0]

theorem schemaRoundTrip (t : SchemaType) (v : SchemaValue)
    (hc : conformsVal t v = true) :
    ∀ r, decodeValue t (encodeValue t v ++ r) = .ok (v, r) :=
  schemaRoundTripAux (sizeOf t) t (Nat.le_refl _) v hc

/-! ## The claims -/
/-- C1: for every schema node and every value conforming to it, decoding
the encoding returns exactly that value (round-trip law), and in
particular deserializing the serialization of any well-formed CIS4
credential-info record returns the record. -/
theorem claim_C1 (t : SchemaType) (v : SchemaValue)
    (hc : conformsVal t v = true)
    (c : CredentialInfo) (hwf : c.wf = true) :
    decodeValue t (encodeValue t v) = .ok (v, []) ∧
    deserializeCIS4CredentialInfo (serializeCIS4CredentialInfo c) =
      .ok (c, []) := by
  constructor
  · have h1 := schemaRoundTrip t v hc []
    rwa [List.append_nil] at h1
  · have h2 := deserializeCIS4CredentialInfo_decodes hwf []
    rwa [List.append_nil] at h2

theorem claim_C1_witness :
    decodeValue (.list .p1 (.uint 1))
        (encodeValue (.list .p1 (.uint 1)) (.seq [.num 5, .num 250])) =
      .ok (.seq [.num 5, .num 250], []) ∧
    deserializeCIS4CredentialInfo (serializeCIS4CredentialInfo cInfoEx) =
      .ok (cInfoEx, []) :=
  claim_C1 _ _ (by simp [conformsVal, conformsHom, LengthPrefix.width])
    cInfoEx (by decide)

/-- C2 (amended): a submission blob in the image of the serializer — one
whose signature maps are in the canonical strictly-ascending key order —
round-trips: deserializing it returns exactly the transaction and
signature map it was built from.  (On blobs with out-of-order credential
or key indices the decode succeeds but re-serialization reorders, so the
literal all-blobs statement fails; see the counterexample.) -/
theorem claim_C2 {t : AccountTransaction}
    {sigs : AccountTransactionSignature}
    (hh : wfHeader t.header = true) (hp : wfPayload t.payload = true)
    (hs : wfSignature sigs = true) :
    deserializeTransaction
      (serializeAccountTransactionForSubmission t sigs) = .ok (t, sigs) :=
  deserialize_serialize_transaction hh hp hs

theorem claim_C2_witness :
    wfHeader okTxn.header = true ∧ wfPayload okTxn.payload = true ∧
    wfSignature okSigs = true ∧
    deserializeTransaction
        (serializeAccountTransactionForSubmission okTxn okSigs) =
      .ok (okTxn, okSigs) :=
  ⟨by decide, by decide, by decide,
    claim_C2 (by decide) (by decide) (by decide)⟩

/-- C2 (counterexample to the literal claim): `badBlob` deserializes
successfully, but re-serializing what it decodes to does not reproduce
`badBlob` — the decoder's object rebuild sorted the credential indices. -/
theorem claim_C2_counterexample :
    deserializeTransaction badBlob = .ok (badTxn, badSigs) ∧
    serializeAccountTransactionForSubmission badTxn badSigs ≠ badBlob :=
  ⟨rfl, by decide⟩

/-- C3: a submission blob whose payload kind tag is outside the allow-list
(Transfer, TransferWithMemo, RegisterData) fails deserialization with
`UnsupportedTransactionKindError`, whatever bytes follow the tag. -/
theorem claim_C3 {tag : Nat} {sigs : AccountTransactionSignature}
    {header : AccountTransactionHeader} (hh : wfHeader header = true)
    (hs : wfSignature sigs = true)
    (htag : tag ∉ supportedTransactionKinds) (htb : tag < 256)
    (rest : List Nat) :
    deserializeTransaction (0 ::
      (serializeAccountTransactionSignature sigs ++
        (serializeTransactionHeader header ++ (tag :: rest)))) =
      .error .unsupportedTransactionKind :=
  deserializeTransaction_unsupported hh hs htag htb rest

theorem claim_C3_witness :
    wfHeader hdrEx = true ∧
    wfSignature ([] : AccountTransactionSignature) = true ∧
    (5 : Nat) ∉ supportedTransactionKinds ∧
    deserializeTransaction (0 ::
      (serializeAccountTransactionSignature [] ++
        (serializeTransactionHeader hdrEx ++ (5 :: [])))) =
      .error .unsupportedTransactionKind :=
  ⟨by decide, by decide, by decide,
    claim_C3 (by decide) (by decide) (by decide) (by decide) []⟩

/-- C4 (amended): the CIS4 optional decoder reads the 1-byte presence
flag; flag 0 yields absence, and EVERY nonzero flag byte — not only 1 — is
treated as presence followed by the payload.  (The literal claim, that
flags above 1 are rejected, fails; see the counterexample.) -/
theorem claim_C4 {α : Type} (fn : Dec α) (flag : Nat) (b : List Nat) :
    deserializeOptional fn (flag :: b) =
      if flag = 0 then .ok (none, b)
      else
        match fn b with
        | .error e => .error e
        | .ok (a, r) => .ok (some a, r) := by
  have hread : readLE 1 (flag :: b) = .ok (flag, b) := by
    have h := @readLE_decodes_any 1 [flag] rfl b
    simpa [decodeLE] using h
  unfold deserializeOptional
  simp only [dec_bind_eq, dec_pure_eq]
  unfold decBind
  rw [hread]
  simp only []
  by_cases h0 : flag = 0
  · subst h0
    simp [decPure]
  · have hb : (flag == 0) = false := by simpa using h0
    rw [if_neg h0]
    simp only [hb, Bool.false_eq_true, if_false]
    cases hfb : fn b with
    | error e => simp [hfb]
    | ok p =>
      obtain ⟨a, r⟩ := p
      simp [hfb, decPure]

/-- C4 (counterexample to the literal claim): presence flag 2 is accepted
as "present" by the CIS4 optional decoder. -/
theorem claim_C4_counterexample :
    deserializeOptional (readLE 1) [2, 7] = .ok (some 7, []) := rfl

/-- C5: the exhaustion-based list decoders — the buffer-style CIS-0
support-result list and the cursor-style CIS4 revocation-key list — decode
a concatenation of complete item encodings with no count prefix, returning
exactly one value per item encoding. -/
theorem claim_C5 :
    (∀ blocks : List (List Nat),
      (∀ bl ∈ blocks, supportBlock bl = true) →
      ∃ vals, deserializeSupportResult blocks.flatten = .ok vals ∧
        vals.length = blocks.length) ∧
    (∀ blocks : List (List Nat),
      (∀ bl ∈ blocks, revKeyBlock bl = true) →
      ∃ vals, deserializeCIS4RevocationKeys blocks.flatten = .ok vals ∧
        vals.length = blocks.length) := by
  constructor
  · intro blocks hb
    have hP : ∀ bl ∈ blocks,
        ∃ v, bl ≠ [] ∧ DecodesToBuf supportResultItem bl v := by
      intro bl hbl
      obtain ⟨hne, v, hv⟩ := supportBlock_decodes (hb bl hbl)
      exact ⟨v, hne, hv⟩
    obtain ⟨vals, hf, hlen⟩ := forall₂_of_blocks blocks hP
    exact ⟨vals, makeDeserializeListResponseBuf_blocks supportResultItem
      blocks vals hf, hlen⟩
  · intro blocks hb
    have hP : ∀ bl ∈ blocks,
        ∃ v, bl ≠ [] ∧ DecodesTo deserializeCIS4RevocationKey bl v := by
      intro bl hbl
      obtain ⟨hne, v, hv⟩ := revKeyBlock_decodes (hb bl hbl)
      exact ⟨v, hne, hv⟩
    obtain ⟨vals, hf, hlen⟩ := forall₂_of_blocks blocks hP
    exact ⟨vals, makeDeserializeListResponse_blocks
      deserializeCIS4RevocationKey blocks vals hf, hlen⟩

theorem claim_C5_witness :
    (∀ bl ∈ ([[0], [1]] : List (List Nat)), supportBlock bl = true) ∧
    (∃ vals, deserializeSupportResult
        ([[0], [1]] : List (List Nat)).flatten = .ok vals ∧
      vals.length = ([[0], [1]] : List (List Nat)).length) ∧
    (∀ bl ∈ ([List.replicate 40 0] : List (List Nat)),
      revKeyBlock bl = true) ∧
    (∃ vals, deserializeCIS4RevocationKeys
        ([List.replicate 40 0] : List (List Nat)).flatten = .ok vals ∧
      vals.length = ([List.replicate 40 0] : List (List Nat)).length) :=
  ⟨by decide, claim_C5.1 [[0], [1]] (by decide), by decide,
    claim_C5.2 [List.replicate 40 0] (by decide)⟩

/-- C6 (amended): on any buffer shorter than the 56 bytes a credential
entry minimally occupies, `deserializeCIS4CredentialEntry` fails — with
`UnderflowError` from the cursor's read, or with the invalid-checksum
error when a bad metadata-hash flag byte is reached before the shortage;
it never returns a value.  (The literal claim, that the failure is always
`UnderflowError`, fails; see the counterexample.) -/
theorem claim_C6 (b : List Nat) (h : b.length < 56) :
    deserializeCIS4CredentialEntry b = .error .underflow ∨
      deserializeCIS4CredentialEntry b = .error .invalidChecksumByte :=
  credentialEntry_short_fails b h

theorem claim_C6_witness :
    ([] : List Nat).length < 56 ∧
    (deserializeCIS4CredentialEntry [] = .error .underflow ∨
      deserializeCIS4CredentialEntry [] = .error .invalidChecksumByte) :=
  ⟨by decide, claim_C6 [] (by decide)⟩

/-- C6 (counterexample to the literal claim): a 45-byte buffer — shorter
than the minimum width — whose byte at the metadata-hash flag position is
2 makes the decode fail with the invalid-checksum error, not
`UnderflowError`. -/
theorem claim_C6_counterexample :
    (List.replicate 44 0 ++ [2]).length < 56 ∧
    deserializeCIS4CredentialEntry (List.replicate 44 0 ++ [2]) =
      .error .invalidChecksumByte :=
  ⟨by decide, rfl⟩

/-- C7: the digest signed by `signMessage` and recomputed by message
verification is the hash of address bytes, then exactly eight zero bytes,
then the message bytes; and the hashed preimage never coincides with a
transaction-signing preimage (for a transaction with a valid nonce), since
bytes 32..39 differ. -/
theorem claim_C7 {Sig : Type} (hash : List Nat → List Nat)
    (signer : List Nat → Sig) (addr msg : List Nat)
    (h : AccountTransactionHeader) (p : AccountTransactionPayload)
    (ha : addr.length = 32) (hs : h.sender.length = 32)
    (h1 : 1 ≤ h.nonce) (h2 : h.nonce < 2 ^ 64) :
    signMessage hash signer addr msg =
      signer (hash (addr ++ List.replicate 8 0 ++ msg)) ∧
    verifyMessageSignatureDigest hash addr msg =
      hash (addr ++ List.replicate 8 0 ++ msg) ∧
    messageSigningPreimage addr msg ≠ transactionSignPreimage h p :=
  ⟨rfl, rfl, messagePreimage_ne_transactionPreimage addr msg h p ha hs h1 h2⟩

theorem claim_C7_witness :
    signMessage (fun x => x) (fun x => x) (List.replicate 32 1) [3] =
      List.replicate 32 1 ++ List.replicate 8 0 ++ [3] ∧
    verifyMessageSignatureDigest (fun x => x) (List.replicate 32 1) [3] =
      List.replicate 32 1 ++ List.replicate 8 0 ++ [3] ∧
    messageSigningPreimage (List.replicate 32 1) [3] ≠
      transactionSignPreimage hdrEx (.registerData []) :=
  claim_C7 (fun x => x) (fun x => x) (List.replicate 32 1) [3] hdrEx
    (.registerData []) (by decide) (by decide) (by decide) (by decide)

/-- C8: `cis0Supports` returns `undefined` (`.ok none`) exactly when the
instance's method list lacks `<contractName>.supports` — and then without
invoking the contract; every successful answer has one result per queried
identifier (the bare result for a single-identifier query); a decoded
result count differing from the query count is a length-mismatch error. -/
theorem claim_C8 (ii : Option InstanceInfo)
    (invoke : List Nat → Option InvokeResult)
    (ids : List Nat ⊕ List (List Nat)) :
    (∀ info, ii = some info →
      info.methods.contains (getContractName info ++ ".supports") = false →
      cis0Supports ii invoke ids = (false, .ok none)) ∧
    ((cis0Supports ii invoke ids).2 = .ok none ↔
      ∃ info, ii = some info ∧
        info.methods.contains (getContractName info ++ ".supports")
          = false) ∧
    (∀ out, (cis0Supports ii invoke ids).2 = .ok (some out) →
      (∃ x r, ids = .inl x ∧ out = .inl r) ∨
      (∃ xs rs, ids = .inr xs ∧ out = .inr rs ∧ rs.length = xs.length)) ∧
    (∀ info bytes results, ii = some info →
      info.methods.contains (getContractName info ++ ".supports") = true →
      invoke (serializeSupportIdentifiers (idsListOf ids)) =
        some (InvokeResult.mk .success (some bytes)) →
      deserializeSupportResult bytes = .ok results →
      results.length ≠ expectedOf ids →
      (cis0Supports ii invoke ids).2 = .error .lengthMismatch) := by
  refine ⟨?_, cis0Supports_none_iff ii invoke ids,
    fun out h => cis0Supports_arity ii invoke ids out h, ?_⟩
  · rintro info rfl hm
    exact cis0Supports_no_method info invoke ids hm
  · rintro info bytes results rfl hc hinv hdec hlen
    exact cis0Supports_mismatch info invoke ids bytes results hc hinv
      hdec hlen

theorem claim_C8_witness :
    cis0Supports (some infoEx) (fun _ => none) (.inl [0]) =
      (false, .ok none) :=
  (claim_C8 (some infoEx) (fun _ => none) (.inl [0])).1 infoEx rfl
    (by decide)

/-- C9: a CIS-0 support result reads a 1-byte tag: 0 is NoSupport, 1 is
Support, 2 is SupportBy with a 1-byte address count and sixteen bytes
(8-byte LE index, 8-byte LE subindex) per address; any tag above 2 makes
the whole deserialization throw. -/
theorem claim_C9 (rest : List Nat) (t n : Nat)
    (addrs : List ContractAddress) (tail : List Nat) (ht : 2 < t)
    (hn : addrs.length = n)
    (hwf : ∀ a ∈ addrs, a.index < 2 ^ 64 ∧ a.subindex < 2 ^ 64) :
    supportResultItem (0 :: rest) = .ok (.noSupport, 1) ∧
    supportResultItem (1 :: rest) = .ok (.support, 1) ∧
    supportResultItem ((2 :: n :: encodeContractAddresses addrs) ++ tail) =
      .ok (.supportBy addrs, 2 + 16 * n) ∧
    supportResultItem (t :: rest) = .error .invalidTag ∧
    deserializeSupportResult (t :: rest) = .error .invalidTag :=
  ⟨supportResultItem_tag0 rest, supportResultItem_tag1 rest,
   supportResultItem_tag2 n addrs tail hn hwf,
   supportResultItem_tagBig rest ht,
   deserializeSupportResult_tagBig rest ht⟩

theorem claim_C9_witness :
    supportResultItem [0] = .ok (.noSupport, 1) ∧
    supportResultItem [1] = .ok (.support, 1) ∧
    supportResultItem
        ((2 :: 1 :: encodeContractAddresses [⟨1, 2⟩]) ++ []) =
      .ok (.supportBy [⟨1, 2⟩], 2 + 16 * 1) ∧
    supportResultItem [3] = .error .invalidTag ∧
    deserializeSupportResult [3] = .error .invalidTag :=
  claim_C9 [] 3 1 [⟨1, 2⟩] [] (by decide) (by decide) (by decide)

/-- C10: the claimed Duration round-trip does not hold for ANY duration
value — `toSchemaValue` renders the value with a space before the unit
("N ms"), and the duration-string parser rejects every space-separated
measure whose unit is detached, so `fromSchemaValue` always throws the
invalid-format error. -/
theorem claim_C10 (v : Nat) :
    Duration.fromSchemaValue (Duration.toSchemaValue v) =
      .error "Invalid duration format" :=
  duration_schema_roundtrip_throws v
